import Mathlib

/-!
Verification of the graph-construction and shortest-path core of the
E-Commerce Logistics Optimizer (`src/routing_engine.py`).

The Python code builds a `networkx.DiGraph` (`build_graph`) and runs
`nx.single_source_dijkstra` from every node (`compute_shortest_paths`).
This file gives a shallow embedding of exactly that code:

* Python dicts are embedded as insertion-ordered association lists
  (`alookup` / `aupsert`); assigning to an existing key overwrites the value
  in place, assigning to a fresh key appends — the semantics of CPython
  dicts used by networkx.
* `Graph` carries the `_node` attribute dict and the `_succ` adjacency dict
  of a `networkx.DiGraph`.  `Graph.add_node` / `Graph.add_edge` follow
  `DiGraph.add_node` / `DiGraph.add_edge`: both silently create missing
  endpoints, and both overwrite data of an existing node/edge
  (last-write-wins).
* The solver embeds `networkx`'s `_dijkstra_multisource` specialised to one
  source: a fringe of `(dist, counter, node)` triples popped in lexicographic
  `(dist, counter)` order (Python's `heapq` on tuples with a unique counter),
  stale entries skipped via the `dist` dict, relaxation guarded by `seen`,
  and the `raise ValueError("Contradictory paths found: negative weights?")`
  branch embedded as `Except.error .contradictoryPaths`.  The loop is written
  with explicit fuel; `dijkstraFuel` is one more than the total number of
  adjacency entries, which bounds the number of heap pushes and hence of
  iterations, so the `outOfFuel` branch is unreachable (all theorems about
  runs are conditional on an `Except.ok` result, and the concrete witnesses
  evaluate to `Except.ok`).

Node identifiers are an arbitrary type `α` with decidable equality and node
attributes (the `location` / `type` CSV columns) an arbitrary type `β`;
edge weights (`distance_km`) are integers.
-/

section AssocList

variable {α : Type} {β : Type} [DecidableEq α]

/-- Lookup in an association list: the value of the first pair with the given
key, the embedding of Python `d[k]` / `k in d`. -/
def alookup (k : α) : List (α × β) → Option β
  | [] => none
  | (a, b) :: l => if a = k then some b else alookup k l

/-- Assignment `d[k] = v` on a Python dict: overwrite the first pair with the
given key in place, or append a new pair at the end. -/
def aupsert (k : α) (v : β) : List (α × β) → List (α × β)
  | [] => [(k, v)]
  | (a, b) :: l => if a = k then (k, v) :: l else (a, b) :: aupsert k v l

/-- Insert a default value only when the key is absent (networkx's
`if n not in self._node: ...` pattern). -/
def aensure (k : α) (v : β) (l : List (α × β)) : List (α × β) :=
  if (alookup k l).isSome then l else l ++ [(k, v)]

theorem alookup_cons (a : α) (b : β) (l : List (α × β)) (k : α) :
    alookup k ((a, b) :: l) = if a = k then some b else alookup k l := rfl

theorem alookup_isSome_iff_mem (k : α) (l : List (α × β)) :
    (alookup k l).isSome ↔ k ∈ l.map Prod.fst := by
  induction l with
  | nil => simp [alookup]
  | cons p l ih =>
    obtain ⟨a, b⟩ := p
    by_cases h : a = k
    · subst h; simp [alookup]
    · simp [alookup, h, ih, Ne.symm h]

theorem alookup_eq_some_mem {k : α} {v : β} {l : List (α × β)}
    (h : alookup k l = some v) : (k, v) ∈ l := by
  induction l with
  | nil => simp [alookup] at h
  | cons p l ih =>
    obtain ⟨a, b⟩ := p
    rw [alookup_cons] at h
    by_cases ha : a = k
    · rw [if_pos ha] at h
      have hb : b = v := by injection h
      subst hb; subst ha
      exact List.mem_cons_self _ _
    · rw [if_neg ha] at h
      exact List.mem_cons_of_mem _ (ih h)

theorem alookup_aupsert_self (k : α) (v : β) (l : List (α × β)) :
    alookup k (aupsert k v l) = some v := by
  induction l with
  | nil => simp [alookup, aupsert]
  | cons p l ih =>
    obtain ⟨a, b⟩ := p
    by_cases ha : a = k
    · subst ha; simp [alookup, aupsert]
    · simp [alookup, aupsert, ha, ih]

theorem alookup_aupsert_ne {k k' : α} (h : k' ≠ k) (v : β) (l : List (α × β)) :
    alookup k' (aupsert k v l) = alookup k' l := by
  induction l with
  | nil => simp [alookup, aupsert, if_neg (fun hk : k = k' => h hk.symm)]
  | cons p l ih =>
    obtain ⟨a, b⟩ := p
    by_cases ha : a = k
    · subst ha
      by_cases hk : a = k'
      · exact absurd hk.symm h
      · simp [alookup, aupsert, hk]
    · by_cases hk : a = k'
      · subst hk; simp [alookup, aupsert, ha]
      · simp [alookup, aupsert, ha, hk, ih]

theorem alookup_append (k : α) (l₁ l₂ : List (α × β)) :
    alookup k (l₁ ++ l₂) = (alookup k l₁).orElse (fun _ => alookup k l₂) := by
  induction l₁ with
  | nil => simp [alookup]
  | cons p l ih =>
    obtain ⟨a, b⟩ := p
    by_cases ha : a = k
    · subst ha; simp [alookup]
    · simp [alookup, ha, ih]

theorem alookup_aensure_of_isSome {k : α} {l : List (α × β)}
    (h : (alookup k l).isSome) (k' : α) (v : β) :
    alookup k (aensure k' v l) = alookup k l := by
  unfold aensure
  by_cases hk : (alookup k' l).isSome
  · simp [hk]
  · obtain ⟨w, hw⟩ := Option.isSome_iff_exists.mp h
    rw [if_neg hk, alookup_append, hw]
    rfl

theorem alookup_aensure_self_of_none {k : α} {l : List (α × β)}
    (h : alookup k l = none) (v : β) : alookup k (aensure k v l) = some v := by
  unfold aensure
  simp [h, alookup_append, alookup]

theorem alookup_aensure_ne {k k' : α} (h : k ≠ k') (v : β) (l : List (α × β)) :
    alookup k (aensure k' v l) = alookup k l := by
  unfold aensure
  by_cases hk : (alookup k' l).isSome
  · simp [hk]
  · rw [if_neg hk, alookup_append]
    cases hkl : alookup k l with
    | none => simp [alookup, Option.orElse, Ne.symm h]
    | some w => rfl

theorem alookup_map_snd {γ : Type} (k : α) (f : α → β → γ) (l : List (α × β)) :
    alookup k (l.map (fun p => (p.1, f p.1 p.2))) = (alookup k l).map (f k) := by
  induction l with
  | nil => simp [alookup]
  | cons p l ih =>
    obtain ⟨a, b⟩ := p
    by_cases ha : a = k
    · subst ha; simp [alookup]
    · simp [alookup, ha, ih]

end AssocList

section GraphDefs

variable {α : Type} {β : Type} [DecidableEq α]

/-- The state of a `networkx.DiGraph` as used by `build_graph`: the `_node`
dict mapping a node id to its attribute dict (here: `none` for an empty
attribute dict, `some (location, type)` when `add_node` set both columns),
and the `_succ` adjacency dict mapping a node id to its dict of
`successor ↦ weight`. -/
structure Graph (α : Type) (β : Type) where
  nodeAttrs : List (α × Option (β × β))
  adj : List (α × List (α × ℤ))
deriving DecidableEq

/-- The graph `nx.DiGraph()` starts from. -/
def Graph.empty : Graph α β := ⟨[], []⟩

/-- The outgoing-edge dict of a node (empty when the node is absent). -/
def Graph.adjOf (G : Graph α β) (u : α) : List (α × ℤ) := (alookup u G.adj).getD []

/-- Iteration order of `G.nodes`: insertion order of the `_node` dict. -/
def Graph.nodeKeys (G : Graph α β) : List α := G.nodeAttrs.map Prod.fst

/-- The stored weight of the edge `u → v`, when present. -/
def Graph.edgeWeight (G : Graph α β) (u v : α) : Option ℤ := alookup v (G.adjOf u)

/-- Membership test `v in G`. -/
def Graph.hasNode (G : Graph α β) (v : α) : Bool := (alookup v G.nodeAttrs).isSome

/-- Create a node with an empty attribute dict when it is absent — what
`DiGraph.add_edge` does to missing endpoints. -/
def Graph.ensureNode (G : Graph α β) (v : α) : Graph α β :=
  { nodeAttrs := aensure v none G.nodeAttrs
    adj := aensure v [] G.adj }

/-- Embedding of `G.add_node(row["node_id"], location=..., type=...)`:
the attribute dict of an existing node is updated in place (last write
wins), a fresh node is appended; its adjacency dict starts empty. -/
def Graph.add_node (G : Graph α β) (v : α) (loc ty : β) : Graph α β :=
  { nodeAttrs := aupsert v (some (loc, ty)) G.nodeAttrs
    adj := aensure v [] G.adj }

/-- Embedding of `G.add_edge(row["source"], row["target"], weight=...)`:
missing endpoints are silently created with empty attribute dicts, and the
weight of an existing edge is overwritten (last write wins). -/
def Graph.add_edge (G : Graph α β) (u v : α) (w : ℤ) : Graph α β :=
  let G2 := (G.ensureNode u).ensureNode v
  { G2 with adj := aupsert u (aupsert v w (G2.adjOf u)) G2.adj }

/-- One row of `nodes.csv` as consumed by `build_graph` (`type` is a Lean
keyword, so that column is called `ty` here). -/
structure NodeRow (α : Type) (β : Type) where
  node_id : α
  location : β
  ty : β
deriving DecidableEq

/-- One row of `edges.csv` as consumed by `build_graph`. -/
structure EdgeRow (α : Type) where
  source : α
  target : α
  distance_km : ℤ
deriving DecidableEq

/-- Embedding of `build_graph`: insert every node row, then every edge row,
in input order.  No validation of any kind is performed. -/
def build_graph (nodes_df : List (NodeRow α β)) (edges_df : List (EdgeRow α)) : Graph α β :=
  let G := nodes_df.foldl (fun G r => G.add_node r.node_id r.location r.ty) Graph.empty
  edges_df.foldl (fun G r => G.add_edge r.source r.target r.distance_km) G

end GraphDefs

section BuildLemmas

variable {α : Type} {β : Type} [DecidableEq α]

/-- The attributes of the last node row carrying a given identifier. -/
def lastNodeAttr (v : α) : List (NodeRow α β) → Option (β × β)
  | [] => none
  | r :: rest =>
    match lastNodeAttr v rest with
    | some a => some a
    | none => if r.node_id = v then some (r.location, r.ty) else none

/-- The weight of the last edge row with a given ordered endpoint pair. -/
def lastWeight (u v : α) : List (EdgeRow α) → Option ℤ
  | [] => none
  | r :: rest =>
    match lastWeight u v rest with
    | some w => some w
    | none => if r.source = u ∧ r.target = v then some r.distance_km else none

/-- An identifier appearing as an endpoint of some edge row. -/
def TouchedBy (v : α) (es : List (EdgeRow α)) : Prop :=
  ∃ r ∈ es, r.source = v ∨ r.target = v

instance (v : α) (es : List (EdgeRow α)) : Decidable (TouchedBy v es) := by
  unfold TouchedBy; infer_instance

theorem alookup_append_single_self {k : α} {l : List (α × β)}
    (h : alookup k l = none) (v : β) : alookup k (l ++ [(k, v)]) = some v := by
  rw [alookup_append, h]
  simp [alookup, Option.orElse]

theorem alookup_append_single_ne {k x : α} (h : x ≠ k) (v : β) (l : List (α × β)) :
    alookup k (l ++ [(x, v)]) = alookup k l := by
  rw [alookup_append]
  cases hl : alookup k l with
  | none => simp [alookup, Option.orElse, h]
  | some w => rfl

theorem ensureNode_adjOf (G : Graph α β) (x u : α) :
    (G.ensureNode x).adjOf u = G.adjOf u := by
  unfold Graph.ensureNode Graph.adjOf aensure
  by_cases hx : (alookup x G.adj).isSome
  · simp [hx]
  · rw [if_neg hx]
    by_cases hux : u = x
    · subst hux
      rw [Option.not_isSome_iff_eq_none] at hx
      rw [alookup_append_single_self hx, hx]
      simp
    · rw [alookup_append_single_ne (fun he => hux he.symm)]

theorem ensureNode_nodeAttrs (G : Graph α β) (x v : α) :
    alookup v (G.ensureNode x).nodeAttrs =
      match alookup v G.nodeAttrs with
      | some a => some a
      | none => if v = x then some none else none := by
  unfold Graph.ensureNode aensure
  by_cases hx : (alookup x G.nodeAttrs).isSome
  · rw [if_pos hx]
    cases h : alookup v G.nodeAttrs with
    | none =>
      by_cases hvx : v = x
      · subst hvx; rw [h] at hx; simp at hx
      · simp [hvx]
    | some a => simp
  · rw [if_neg hx]
    cases h : alookup v G.nodeAttrs with
    | none =>
      by_cases hvx : v = x
      · subst hvx
        rw [alookup_append_single_self h]
        simp
      · rw [alookup_append_single_ne (fun he => hvx he.symm), h]
        simp [hvx]
    | some a =>
      by_cases hvx : v = x
      · subst hvx; rw [h] at hx; simp at hx
      · rw [alookup_append_single_ne (fun he => hvx he.symm), h]

theorem add_edge_adjOf (G : Graph α β) (a b : α) (w : ℤ) (u : α) :
    (G.add_edge a b w).adjOf u =
      if a = u then aupsert b w (G.adjOf a) else G.adjOf u := by
  have hadj : ∀ x, ((G.ensureNode a).ensureNode b).adjOf x = G.adjOf x := by
    intro x; rw [ensureNode_adjOf, ensureNode_adjOf]
  by_cases hau : a = u
  · subst hau
    simp only [Graph.add_edge, Graph.adjOf, if_pos rfl, alookup_aupsert_self,
      Option.getD_some]
    have := hadj a
    unfold Graph.adjOf at this
    rw [this]
    simp
  · simp only [Graph.add_edge, Graph.adjOf, if_neg hau]
    rw [alookup_aupsert_ne (fun hu => hau hu.symm)]
    have := hadj u
    unfold Graph.adjOf at this
    rw [this]

theorem add_edge_edgeWeight (G : Graph α β) (a b : α) (w : ℤ) (u v : α) :
    (G.add_edge a b w).edgeWeight u v =
      if a = u ∧ b = v then some w else G.edgeWeight u v := by
  unfold Graph.edgeWeight
  rw [add_edge_adjOf]
  by_cases hau : a = u
  · subst hau
    rw [if_pos rfl]
    by_cases hbv : b = v
    · subst hbv
      simp [alookup_aupsert_self]
    · rw [alookup_aupsert_ne (fun hv => hbv hv.symm)]
      simp [hbv]
  · simp [hau]

theorem add_edge_nodeAttrs (G : Graph α β) (a b : α) (w : ℤ) (v : α) :
    alookup v (G.add_edge a b w).nodeAttrs =
      match alookup v G.nodeAttrs with
      | some x => some x
      | none => if v = a ∨ v = b then some none else none := by
  show alookup v ((G.ensureNode a).ensureNode b).nodeAttrs = _
  rw [ensureNode_nodeAttrs, ensureNode_nodeAttrs]
  cases h : alookup v G.nodeAttrs with
  | some x => simp
  | none =>
    by_cases hva : v = a
    · simp [hva]
    · by_cases hvb : v = b
      · subst hvb
        simp [hva]
      · simp [hva, hvb]

theorem add_node_nodeAttrs (G : Graph α β) (i : α) (loc ty : β) (v : α) :
    alookup v (G.add_node i loc ty).nodeAttrs =
      if i = v then some (some (loc, ty)) else alookup v G.nodeAttrs := by
  unfold Graph.add_node
  by_cases hiv : i = v
  · subst hiv; simp [alookup_aupsert_self]
  · simp only [if_neg hiv]
    exact alookup_aupsert_ne (fun he => hiv he.symm) _ _

theorem add_node_adjOf (G : Graph α β) (i : α) (loc ty : β) (u : α) :
    (G.add_node i loc ty).adjOf u = G.adjOf u := by
  unfold Graph.add_node Graph.adjOf aensure
  by_cases hx : (alookup i G.adj).isSome
  · simp [hx]
  · rw [if_neg hx]
    by_cases hui : u = i
    · subst hui
      rw [Option.not_isSome_iff_eq_none] at hx
      rw [alookup_append_single_self hx, hx]
      simp
    · rw [alookup_append_single_ne (fun he => hui he.symm)]

theorem add_node_edgeWeight (G : Graph α β) (i : α) (loc ty : β) (u v : α) :
    (G.add_node i loc ty).edgeWeight u v = G.edgeWeight u v := by
  unfold Graph.edgeWeight
  rw [add_node_adjOf]

theorem lastNodeAttr_cons (v : α) (r : NodeRow α β) (rest : List (NodeRow α β)) :
    lastNodeAttr v (r :: rest) =
      match lastNodeAttr v rest with
      | some a => some a
      | none => if r.node_id = v then some (r.location, r.ty) else none := rfl

theorem lastWeight_cons (u v : α) (r : EdgeRow α) (rest : List (EdgeRow α)) :
    lastWeight u v (r :: rest) =
      match lastWeight u v rest with
      | some w => some w
      | none => if r.source = u ∧ r.target = v then some r.distance_km else none := rfl

theorem nodesFold_nodeAttrs (ns : List (NodeRow α β)) (G : Graph α β) (v : α) :
    alookup v (ns.foldl (fun G r => G.add_node r.node_id r.location r.ty) G).nodeAttrs =
      match lastNodeAttr v ns with
      | some a => some (some a)
      | none => alookup v G.nodeAttrs := by
  induction ns generalizing G with
  | nil => simp [lastNodeAttr]
  | cons r rest ih =>
    rw [List.foldl_cons, ih, lastNodeAttr_cons]
    cases h : lastNodeAttr v rest with
    | some a => simp
    | none =>
      rw [add_node_nodeAttrs]
      by_cases hr : r.node_id = v
      · simp [hr]
      · simp [hr]

theorem nodesFold_edgeWeight (ns : List (NodeRow α β)) (G : Graph α β) (u v : α) :
    (ns.foldl (fun G r => G.add_node r.node_id r.location r.ty) G).edgeWeight u v =
      G.edgeWeight u v := by
  induction ns generalizing G with
  | nil => rfl
  | cons r rest ih => rw [List.foldl_cons, ih, add_node_edgeWeight]

theorem edgesFold_edgeWeight (es : List (EdgeRow α)) (G : Graph α β) (u v : α) :
    (es.foldl (fun G r => G.add_edge r.source r.target r.distance_km) G).edgeWeight u v =
      match lastWeight u v es with
      | some w => some w
      | none => G.edgeWeight u v := by
  induction es generalizing G with
  | nil => simp [lastWeight]
  | cons r rest ih =>
    rw [List.foldl_cons, ih, lastWeight_cons]
    cases h : lastWeight u v rest with
    | some w => simp
    | none =>
      rw [add_edge_edgeWeight]
      by_cases hr : r.source = u ∧ r.target = v
      · simp [hr]
      · simp [hr]

theorem edgesFold_nodeAttrs (es : List (EdgeRow α)) (G : Graph α β) (v : α) :
    alookup v (es.foldl (fun G r => G.add_edge r.source r.target r.distance_km) G).nodeAttrs =
      match alookup v G.nodeAttrs with
      | some x => some x
      | none => if TouchedBy v es then some none else none := by
  induction es generalizing G with
  | nil =>
    simp only [List.foldl_nil, TouchedBy, List.not_mem_nil, false_and, exists_false,
      if_false]
    cases alookup v G.nodeAttrs <;> rfl
  | cons r rest ih =>
    rw [List.foldl_cons, ih, add_edge_nodeAttrs]
    have htb : TouchedBy v (r :: rest) ↔ (v = r.source ∨ v = r.target) ∨ TouchedBy v rest := by
      unfold TouchedBy
      constructor
      · rintro ⟨q, hq, hqe⟩
        rcases List.mem_cons.mp hq with h | h
        · subst h
          rcases hqe with h | h
          · exact Or.inl (Or.inl h.symm)
          · exact Or.inl (Or.inr h.symm)
        · exact Or.inr ⟨q, h, hqe⟩
      · rintro ((h | h) | ⟨q, hq, hqe⟩)
        · exact ⟨r, List.mem_cons_self _ _, Or.inl h.symm⟩
        · exact ⟨r, List.mem_cons_self _ _, Or.inr h.symm⟩
        · exact ⟨q, List.mem_cons_of_mem _ hq, hqe⟩
    cases h : alookup v G.nodeAttrs with
    | some x => simp
    | none =>
      by_cases hre : v = r.source ∨ v = r.target
      · simp only [if_pos hre]
        rw [if_pos (htb.mpr (Or.inl hre))]
      · simp only [if_neg hre]
        by_cases ht : TouchedBy v rest
        · rw [if_pos ht, if_pos (htb.mpr (Or.inr ht))]
        · rw [if_neg ht, if_neg (fun hc => by
            rcases htb.mp hc with h | h
            · exact hre h
            · exact ht h)]

theorem build_graph_edgeWeight (ns : List (NodeRow α β)) (es : List (EdgeRow α)) (u v : α) :
    (build_graph ns es).edgeWeight u v = lastWeight u v es := by
  unfold build_graph
  rw [edgesFold_edgeWeight, nodesFold_edgeWeight]
  cases h : lastWeight u v es with
  | some w => rfl
  | none => rfl

theorem build_graph_nodeAttrs (ns : List (NodeRow α β)) (es : List (EdgeRow α)) (v : α) :
    alookup v (build_graph ns es).nodeAttrs =
      match lastNodeAttr v ns with
      | some a => some (some a)
      | none => if TouchedBy v es then some none else none := by
  unfold build_graph
  rw [edgesFold_nodeAttrs, nodesFold_nodeAttrs]
  cases h : lastNodeAttr v ns with
  | some a => rfl
  | none => simp [alookup]

end BuildLemmas

section SolverDefs

variable {α : Type} {β : Type} [DecidableEq α]

/-- The ways the Python solver can fail: networkx raises
`ValueError("Contradictory paths found: negative weights?")` when a relaxation
improves an already-finalised distance; `outOfFuel` is an artifact of the
fuel-indexed loop below and is unreachable at the fuel `dijkstraFuel`
supplies. -/
inductive SolveError where
  | contradictoryPaths
  | outOfFuel
deriving DecidableEq

/-- Decidable equality of `Except` results, so that concrete runs of the
solver can be compared by `decide`. -/
instance {ε σ : Type} [DecidableEq ε] [DecidableEq σ] : DecidableEq (Except ε σ) := fun a b =>
  match a, b with
  | .error x, .error y =>
    match decEq x y with
    | isTrue h => isTrue (h ▸ rfl)
    | isFalse h => isFalse fun hc => h (by injection hc)
  | .error _, .ok _ => isFalse fun hc => Except.noConfusion hc
  | .ok _, .error _ => isFalse fun hc => Except.noConfusion hc
  | .ok x, .ok y =>
    match decEq x y with
    | isTrue h => isTrue (h ▸ rfl)
    | isFalse h => isFalse fun hc => h (by injection hc)

/-- The loop state of `_dijkstra_multisource`: the `dist` dict of finalised
distances, the `seen` dict of best tentative distances, the `paths` dict, the
heap `fringe` of `(distance, counter, node)` triples and the `counter` from
`itertools.count()`. -/
structure DState (α : Type) where
  dist : List (α × ℤ)
  seen : List (α × ℤ)
  paths : List (α × List α)
  fringe : List (ℤ × ℕ × α)
  counter : ℕ
deriving DecidableEq

/-- `heapq.heappop` on `(distance, counter, node)` triples: remove a triple
that is minimal in the lexicographic `(distance, counter)` order.  Counters
are pairwise distinct in every fringe the solver builds, so this order never
compares nodes and is total on the entries, exactly as in Python. -/
def popMin : List (ℤ × ℕ × α) → Option ((ℤ × ℕ × α) × List (ℤ × ℕ × α))
  | [] => none
  | x :: xs =>
    match popMin xs with
    | none => some (x, [])
    | some (m, rest) =>
      if x.1 < m.1 ∨ (x.1 = m.1 ∧ x.2.1 ≤ m.2.1) then some (x, xs) else some (m, x :: rest)

/-- The body of the `elif u not in seen or vu_dist < seen[u]` branch: record
the improved tentative distance, push a fringe entry with the next counter,
and set `paths[u] = paths[v] + [u]` (`paths[v]` is always present when this
runs; `getD []` only discharges the lookup). -/
def pushState (v u : α) (vu : ℤ) (st : DState α) : DState α :=
  { dist := st.dist
    seen := aupsert u vu st.seen
    paths := aupsert u ((alookup v st.paths).getD [] ++ [u]) st.paths
    fringe := st.fringe ++ [(vu, st.counter, u)]
    counter := st.counter + 1 }

/-- Relaxation of the single edge `v → e.1` of weight `e.2` from the freshly
finalised node `v` at distance `dv`, following `_dijkstra_multisource` line by
line (`pred` and `cutoff` are `None` in this program). -/
def relax (v : α) (dv : ℤ) (st : DState α) (e : α × ℤ) : Except SolveError (DState α) :=
  let vu := dv + e.2
  match alookup e.1 st.dist with
  | some du => if vu < du then .error .contradictoryPaths else .ok st
  | none =>
    match alookup e.1 st.seen with
    | some su => if vu < su then .ok (pushState v e.1 vu st) else .ok st
    | none => .ok (pushState v e.1 vu st)

/-- The `for u, e in G_succ[v].items()` loop over the outgoing edges of `v`. -/
def foldRelax (v : α) (dv : ℤ) : DState α → List (α × ℤ) → Except SolveError (DState α)
  | st, [] => .ok st
  | st, e :: es =>
    match relax v dv st e with
    | .error err => .error err
    | .ok st2 => foldRelax v dv st2 es

/-- The `while fringe:` loop of `_dijkstra_multisource`, indexed by fuel:
pop the minimal fringe entry, skip it when its node is already finalised,
otherwise finalise the node and relax its outgoing edges. -/
def dloopF (G : Graph α β) :
    ℕ → DState α → Except SolveError (List (α × ℤ) × List (α × List α))
  | 0, st =>
    match popMin st.fringe with
    | none => .ok (st.dist, st.paths)
    | some _ => .error .outOfFuel
  | fuel + 1, st =>
    match popMin st.fringe with
    | none => .ok (st.dist, st.paths)
    | some (x, rest) =>
      if (alookup x.2.2 st.dist).isSome then
        dloopF G fuel { st with fringe := rest }
      else
        match foldRelax x.2.2 x.1
            { st with dist := st.dist ++ [(x.2.2, x.1)], fringe := rest }
            (G.adjOf x.2.2) with
        | .error err => .error err
        | .ok st2 => dloopF G fuel st2

/-- Fuel that always suffices: every loop iteration pops one fringe entry, and
the total number of pushes is at most one (the source) plus one per adjacency
entry, since each node's edges are relaxed at most once. -/
def dijkstraFuel (G : Graph α β) : ℕ := 1 + (G.adj.map (fun p => p.2.length)).sum

/-- Embedding of `nx.single_source_dijkstra(G, source)`: `paths` starts as
`{source: [source]}`, `seen` as `{source: 0}`, the fringe holds
`(0, next(counter), source)`.  Returns the pair `(lengths, paths)`. -/
def single_source_dijkstra (G : Graph α β) (s : α) :
    Except SolveError (List (α × ℤ) × List (α × List α)) :=
  dloopF G (dijkstraFuel G) ⟨[], [(s, 0)], [(s, [s])], [(0, 0, s)], 1⟩

/-- One entry of the routing table:
`{"path": paths[target], "distance_km": lengths[target]}`. -/
structure RouteEntry (α : Type) where
  path : List α
  distance_km : ℤ
deriving DecidableEq

/-- The inner dict comprehension
`{target: {"path": ..., "distance_km": ...} for target in paths}`
(`lengths[target]` is always present for a key of `paths`; `getD 0` only
discharges the lookup). -/
def innerTable (lengths : List (α × ℤ)) (paths : List (α × List α)) :
    List (α × RouteEntry α) :=
  paths.map (fun tp => (tp.1, ⟨tp.2, (alookup tp.1 lengths).getD 0⟩))

/-- The `for source in G.nodes:` loop of `compute_shortest_paths`; a raised
exception aborts the whole computation, so the result is all-or-nothing. -/
def cspAux (G : Graph α β) : List α → Except SolveError (List (α × List (α × RouteEntry α)))
  | [] => .ok []
  | s :: rest =>
    match single_source_dijkstra G s with
    | .error e => .error e
    | .ok dp =>
      match cspAux G rest with
      | .error e => .error e
      | .ok tbl => .ok ((s, innerTable dp.1 dp.2) :: tbl)

/-- Embedding of `compute_shortest_paths(G)`: the routing table keyed by
source in `G.nodes` order. -/
def compute_shortest_paths (G : Graph α β) :
    Except SolveError (List (α × List (α × RouteEntry α))) :=
  cspAux G G.nodeKeys

end SolverDefs

section SpecTieBreak

variable {α : Type} {β : Type} [DecidableEq α] [LinearOrder α]

/-- Modelled from the spec (§4.2): extraction that breaks ties between equal
tentative costs by "lower node identifier in sort order" instead of by heap
insertion counter.  This is the comparison definition for the determinism
claim; everything else mirrors the solver above. -/
def popMinByNode : List (ℤ × ℕ × α) → Option ((ℤ × ℕ × α) × List (ℤ × ℕ × α))
  | [] => none
  | x :: xs =>
    match popMinByNode xs with
    | none => some (x, [])
    | some (m, rest) =>
      if x.1 < m.1 ∨ (x.1 = m.1 ∧ x.2.2 ≤ m.2.2) then some (x, xs) else some (m, x :: rest)

/-- The solver loop with the spec's node-identifier tie-break. -/
def dloopByNode (G : Graph α β) :
    ℕ → DState α → Except SolveError (List (α × ℤ) × List (α × List α))
  | 0, st =>
    match popMinByNode st.fringe with
    | none => .ok (st.dist, st.paths)
    | some _ => .error .outOfFuel
  | fuel + 1, st =>
    match popMinByNode st.fringe with
    | none => .ok (st.dist, st.paths)
    | some (x, rest) =>
      if (alookup x.2.2 st.dist).isSome then
        dloopByNode G fuel { st with fringe := rest }
      else
        match foldRelax x.2.2 x.1
            { st with dist := st.dist ++ [(x.2.2, x.1)], fringe := rest }
            (G.adjOf x.2.2) with
        | .error err => .error err
        | .ok st2 => dloopByNode G fuel st2

/-- Single-source solve under the spec's node-identifier tie-break. -/
def dijkstraByNode (G : Graph α β) (s : α) :
    Except SolveError (List (α × ℤ) × List (α × List α)) :=
  dloopByNode G (dijkstraFuel G) ⟨[], [(s, 0)], [(s, [s])], [(0, 0, s)], 1⟩

/-- The `for source in G.nodes` loop under the spec's tie-break. -/
def cspByNodeAux (G : Graph α β) :
    List α → Except SolveError (List (α × List (α × RouteEntry α)))
  | [] => .ok []
  | s :: rest =>
    match dijkstraByNode G s with
    | .error e => .error e
    | .ok dp =>
      match cspByNodeAux G rest with
      | .error e => .error e
      | .ok tbl => .ok ((s, innerTable dp.1 dp.2) :: tbl)

/-- All-pairs solve under the spec's node-identifier tie-break, for comparison
with `compute_shortest_paths`. -/
def solveAllByNode (G : Graph α β) :
    Except SolveError (List (α × List (α × RouteEntry α))) :=
  cspByNodeAux G G.nodeKeys

end SpecTieBreak

section WalkDefs

variable {α : Type} {β : Type} [DecidableEq α]

/-- A walk through the graph together with its total weight: `WalkW G u t p c`
says that `p` is a nonempty sequence of nodes leading from `u` to `t` whose
consecutive pairs are stored edges, and that the stored weights along it sum
to `c`. -/
inductive WalkW (G : Graph α β) : α → α → List α → ℤ → Prop
  | single (v : α) : WalkW G v v [v] 0
  | cons (u v t : α) (p : List α) (w c : ℤ) :
      G.edgeWeight u v = some w → WalkW G v t p c → WalkW G u t (u :: p) (w + c)

/-- Reachability along stored edges (reflexive). -/
def Reachable (G : Graph α β) (s t : α) : Prop := ∃ p c, WalkW G s t p c

/-- Every stored edge weight is non-negative (the hypothesis under which
Dijkstra's algorithm is correct). -/
def NonnegWeights (G : Graph α β) : Prop := ∀ p ∈ G.adj, ∀ q ∈ p.2, 0 ≤ q.2

/-- Each adjacency dict binds each successor at most once.  True of every
graph assembled with `aupsert` (in particular of every `build_graph` output);
stated over the raw lists so that concrete instances are decidable. -/
def NodupAdjKeys (G : Graph α β) : Prop := ∀ p ∈ G.adj, (p.2.map Prod.fst).Nodup

end WalkDefs

section PopMinLemmas

variable {α : Type}

theorem popMin_none_iff (l : List (ℤ × ℕ × α)) : popMin l = none ↔ l = [] := by
  cases l with
  | nil => simp [popMin]
  | cons x xs =>
    simp only [popMin]
    cases h : popMin xs with
    | none => simp
    | some pr =>
      obtain ⟨m, rest⟩ := pr
      by_cases hc : x.1 < m.1 ∨ (x.1 = m.1 ∧ x.2.1 ≤ m.2.1) <;> simp [hc]

theorem popMin_perm {l : List (ℤ × ℕ × α)} {x : ℤ × ℕ × α} {rest : List (ℤ × ℕ × α)}
    (h : popMin l = some (x, rest)) : l.Perm (x :: rest) := by
  induction l generalizing x rest with
  | nil => simp [popMin] at h
  | cons y ys ih =>
    cases hys : popMin ys with
    | none =>
      rw [popMin_none_iff] at hys
      subst hys
      simp only [popMin] at h
      injection h with h
      injection h with h1 h2
      subst h1; subst h2
      exact List.Perm.refl _
    | some pr =>
      obtain ⟨m, mrest⟩ := pr
      simp only [popMin, hys] at h
      by_cases hc : y.1 < m.1 ∨ (y.1 = m.1 ∧ y.2.1 ≤ m.2.1)
      · rw [if_pos hc] at h
        injection h with h
        injection h with h1 h2
        subst h1; subst h2
        exact List.Perm.refl _
      · rw [if_neg hc] at h
        injection h with h
        injection h with h1 h2
        subst h1; subst h2
        exact ((ih hys).cons y).trans (List.Perm.swap m y mrest)

theorem popMin_min {l : List (ℤ × ℕ × α)} {x : ℤ × ℕ × α} {rest : List (ℤ × ℕ × α)}
    (h : popMin l = some (x, rest)) :
    ∀ y ∈ l, x.1 < y.1 ∨ (x.1 = y.1 ∧ x.2.1 ≤ y.2.1) := by
  induction l generalizing x rest with
  | nil => simp [popMin] at h
  | cons z zs ih =>
    cases hzs : popMin zs with
    | none =>
      rw [popMin_none_iff] at hzs
      subst hzs
      simp only [popMin] at h
      injection h with h
      injection h with h1 h2
      subst h1
      intro y hy
      rcases List.mem_singleton.mp hy with rfl
      exact Or.inr ⟨rfl, le_refl _⟩
    | some pr =>
      obtain ⟨m, mrest⟩ := pr
      simp only [popMin, hzs] at h
      have hm := ih hzs
      by_cases hc : z.1 < m.1 ∨ (z.1 = m.1 ∧ z.2.1 ≤ m.2.1)
      · rw [if_pos hc] at h
        injection h with h
        injection h with h1 h2
        subst h1
        intro y hy
        rcases List.mem_cons.mp hy with rfl | hy
        · exact Or.inr ⟨rfl, le_refl _⟩
        · have hmy := hm y hy
          rcases hc with hc | ⟨hc1, hc2⟩ <;> rcases hmy with hmy | ⟨hmy1, hmy2⟩
          · exact Or.inl (lt_trans hc hmy)
          · exact Or.inl (by omega)
          · exact Or.inl (by omega)
          · exact Or.inr ⟨by omega, by omega⟩
      · rw [if_neg hc] at h
        injection h with h
        injection h with h1 h2
        subst h1
        intro y hy
        rcases List.mem_cons.mp hy with rfl | hy
        · push_neg at hc
          obtain ⟨hc1, hc2⟩ := hc
          by_cases heq : y.1 = m.1
          · exact Or.inr ⟨heq.symm, le_of_lt (hc2 heq)⟩
          · exact Or.inl (by omega)
        · exact hm y hy

theorem popMin_mem {l : List (ℤ × ℕ × α)} {x : ℤ × ℕ × α} {rest : List (ℤ × ℕ × α)}
    (h : popMin l = some (x, rest)) : x ∈ l :=
  (popMin_perm h).mem_iff.mpr (List.mem_cons_self _ _)

theorem popMin_mem_of_mem_rest {l : List (ℤ × ℕ × α)} {x y : ℤ × ℕ × α}
    {rest : List (ℤ × ℕ × α)} (h : popMin l = some (x, rest)) (hy : y ∈ rest) : y ∈ l :=
  (popMin_perm h).mem_iff.mpr (List.mem_cons_of_mem _ hy)

theorem popMin_rest_of_mem {l : List (ℤ × ℕ × α)} {x y : ℤ × ℕ × α}
    {rest : List (ℤ × ℕ × α)} (h : popMin l = some (x, rest)) (hy : y ∈ l) (hne : y ≠ x) :
    y ∈ rest := by
  have := (popMin_perm h).mem_iff.mp hy
  rcases List.mem_cons.mp this with h1 | h1
  · exact absurd h1 hne
  · exact h1

end PopMinLemmas

section WalkLemmas

variable {α : Type} {β : Type} [DecidableEq α]

theorem WalkW.ne_nil {G : Graph α β} {s t : α} {p : List α} {c : ℤ}
    (h : WalkW G s t p c) : p ≠ [] := by
  cases h <;> simp

theorem WalkW.head_eq {G : Graph α β} {s t : α} {p : List α} {c : ℤ}
    (h : WalkW G s t p c) : p.head? = some s := by
  cases h <;> rfl

theorem WalkW.last_eq {G : Graph α β} {s t : α} {p : List α} {c : ℤ}
    (h : WalkW G s t p c) : p.getLast? = some t := by
  induction h with
  | single v => rfl
  | cons u v t p w c he hw ih =>
    have hne : p ≠ [] := hw.ne_nil
    cases p with
    | nil => exact absurd rfl hne
    | cons q qs => rw [List.getLast?_cons_cons]; exact ih

theorem WalkW.append_edge {G : Graph α β} {s v u : α} {p : List α} {c w : ℤ}
    (h : WalkW G s v p c) (he : G.edgeWeight v u = some w) :
    WalkW G s u (p ++ [u]) (c + w) := by
  induction h with
  | single x =>
    have := WalkW.cons (G := G) x u u [u] w 0 he (WalkW.single u)
    simpa using this
  | cons a b t q w0 c0 he0 hw ih =>
    have := WalkW.cons (G := G) a b u (q ++ [u]) w0 (c0 + w) he0 (ih he)
    simpa [add_assoc] using this

theorem mem_adjOf_nonneg {G : Graph α β} (hNN : NonnegWeights G) {u : α} {q : α × ℤ}
    (hq : q ∈ G.adjOf u) : 0 ≤ q.2 := by
  unfold Graph.adjOf at hq
  cases h : alookup u G.adj with
  | none => rw [h] at hq; simp at hq
  | some l =>
    rw [h] at hq
    simp only [Option.getD_some] at hq
    exact hNN (u, l) (alookup_eq_some_mem h) q hq

theorem edgeWeight_nonneg {G : Graph α β} (hNN : NonnegWeights G) {u v : α} {w : ℤ}
    (h : G.edgeWeight u v = some w) : 0 ≤ w :=
  mem_adjOf_nonneg hNN (alookup_eq_some_mem h)

theorem WalkW.weight_nonneg {G : Graph α β} (hNN : NonnegWeights G) {s t : α}
    {p : List α} {c : ℤ} (h : WalkW G s t p c) : 0 ≤ c := by
  induction h with
  | single v => exact le_refl 0
  | cons u v t p w c he hw ih =>
    have := edgeWeight_nonneg hNN he
    omega

theorem edgeWeight_isSome_of_mem_adjOf {G : Graph α β} {u : α} {q : α × ℤ}
    (hq : q ∈ G.adjOf u) : (G.edgeWeight u q.1).isSome := by
  unfold Graph.edgeWeight
  rw [alookup_isSome_iff_mem]
  exact List.mem_map_of_mem Prod.fst hq

theorem edgeWeight_of_mem_adjOf_nodup {G : Graph α β} (hWF : NodupAdjKeys G)
    {u : α} {q : α × ℤ} (hq : q ∈ G.adjOf u) : G.edgeWeight u q.1 = some q.2 := by
  unfold Graph.edgeWeight
  unfold Graph.adjOf at hq ⊢
  cases h : alookup u G.adj with
  | none => rw [h] at hq; simp at hq
  | some l =>
    rw [h] at hq
    simp only [Option.getD_some] at hq ⊢
    have hnd : (l.map Prod.fst).Nodup := hWF (u, l) (alookup_eq_some_mem h)
    clear h
    induction l with
    | nil => simp at hq
    | cons e es ih =>
      rcases List.mem_cons.mp hq with rfl | hq2
      · obtain ⟨a, b⟩ := q
        simp [alookup]
      · obtain ⟨a, b⟩ := e
        simp only [List.map_cons, List.nodup_cons] at hnd
        have hne : a ≠ q.1 := by
          intro he
          exact hnd.1 (he ▸ List.mem_map_of_mem Prod.fst hq2)
        rw [alookup_cons, if_neg hne]
        exact ih hq2 hnd.2

end WalkLemmas

section TableLemmas

variable {α : Type} {β : Type} [DecidableEq α]

theorem alookup_innerTable (L : List (α × ℤ)) (P : List (α × List α)) (t : α) :
    alookup t (innerTable L P) =
      (alookup t P).map (fun p => ⟨p, (alookup t L).getD 0⟩) :=
  alookup_map_snd t (fun k p => (⟨p, (alookup k L).getD 0⟩ : RouteEntry α)) P

theorem cspAux_keys {G : Graph α β} {l : List α}
    {rt : List (α × List (α × RouteEntry α))} (h : cspAux G l = .ok rt) :
    rt.map Prod.fst = l := by
  induction l generalizing rt with
  | nil =>
    simp only [cspAux] at h
    injection h with h
    subst h; rfl
  | cons s rest ih =>
    simp only [cspAux] at h
    cases hd : single_source_dijkstra G s with
    | error e => rw [hd] at h; exact absurd h (by simp)
    | ok dp =>
      rw [hd] at h
      cases ht : cspAux G rest with
      | error e => rw [ht] at h; exact absurd h (by simp)
      | ok tbl =>
        rw [ht] at h
        injection h with h
        subst h
        simp [ih ht]

theorem cspAux_lookup {G : Graph α β} {l : List α}
    {rt : List (α × List (α × RouteEntry α))} (h : cspAux G l = .ok rt)
    {s : α} {inner : List (α × RouteEntry α)} (hs : alookup s rt = some inner) :
    ∃ dp, single_source_dijkstra G s = .ok dp ∧ inner = innerTable dp.1 dp.2 := by
  induction l generalizing rt with
  | nil =>
    simp only [cspAux] at h
    injection h with h
    subst h
    simp [alookup] at hs
  | cons x rest ih =>
    simp only [cspAux] at h
    cases hd : single_source_dijkstra G x with
    | error e => rw [hd] at h; exact absurd h (by simp)
    | ok dp =>
      rw [hd] at h
      cases ht : cspAux G rest with
      | error e => rw [ht] at h; exact absurd h (by simp)
      | ok tbl =>
        rw [ht] at h
        injection h with h
        subst h
        rw [alookup_cons] at hs
        by_cases hx : x = s
        · subst hx
          rw [if_pos rfl] at hs
          injection hs with hs
          exact ⟨dp, hd, hs.symm⟩
        · rw [if_neg hx] at hs
          exact ih ht hs

theorem alookup_isSome_of_mem_keys {s : α} {rt : List (α × List (α × RouteEntry α))}
    (h : s ∈ rt.map Prod.fst) : (alookup s rt).isSome :=
  (alookup_isSome_iff_mem s rt).mpr h

end TableLemmas

section WellFormedBuild

variable {α : Type} {β : Type} [DecidableEq α]

theorem mem_aupsert {p : α × β} {k : α} {v : β} {l : List (α × β)}
    (h : p ∈ aupsert k v l) : p = (k, v) ∨ p ∈ l := by
  induction l with
  | nil =>
    simp only [aupsert] at h
    exact Or.inl (List.mem_singleton.mp h)
  | cons q rest ih =>
    obtain ⟨a, b⟩ := q
    simp only [aupsert] at h
    by_cases ha : a = k
    · rw [if_pos ha] at h
      rcases List.mem_cons.mp h with rfl | hm
      · exact Or.inl rfl
      · exact Or.inr (List.mem_cons_of_mem _ hm)
    · rw [if_neg ha] at h
      rcases List.mem_cons.mp h with rfl | hm
      · exact Or.inr (List.mem_cons_self _ _)
      · rcases ih hm with h1 | h1
        · exact Or.inl h1
        · exact Or.inr (List.mem_cons_of_mem _ h1)

theorem mem_aensure {p : α × β} {k : α} {v : β} {l : List (α × β)}
    (h : p ∈ aensure k v l) : p = (k, v) ∨ p ∈ l := by
  unfold aensure at h
  by_cases hk : (alookup k l).isSome
  · rw [if_pos hk] at h
    exact Or.inr h
  · rw [if_neg hk] at h
    rcases List.mem_append.mp h with h1 | h1
    · exact Or.inr h1
    · exact Or.inl (List.mem_singleton.mp h1)

theorem keys_aupsert_subset {x k : α} {v : β} {l : List (α × β)}
    (h : x ∈ (aupsert k v l).map Prod.fst) : x = k ∨ x ∈ l.map Prod.fst := by
  obtain ⟨p, hp, hx⟩ := List.mem_map.mp h
  rcases mem_aupsert hp with rfl | hm
  · exact Or.inl hx.symm
  · exact Or.inr (hx ▸ List.mem_map_of_mem Prod.fst hm)

theorem aupsert_keys_nodup {k : α} {v : β} {l : List (α × β)}
    (h : (l.map Prod.fst).Nodup) : ((aupsert k v l).map Prod.fst).Nodup := by
  induction l with
  | nil => simp [aupsert]
  | cons q rest ih =>
    obtain ⟨a, b⟩ := q
    simp only [List.map_cons, List.nodup_cons] at h
    simp only [aupsert]
    by_cases ha : a = k
    · rw [if_pos ha]
      simp only [List.map_cons, List.nodup_cons]
      exact ⟨ha ▸ h.1, h.2⟩
    · rw [if_neg ha]
      simp only [List.map_cons, List.nodup_cons]
      refine ⟨fun hmem => ?_, ih h.2⟩
      rcases keys_aupsert_subset hmem with h1 | h1
      · exact ha h1
      · exact h.1 h1

/-- Every graph `build_graph` produces has duplicate-free adjacency dicts:
the "valid graph" hypothesis of the optimality claims is not an extra
assumption but an invariant of construction. -/
theorem build_graph_nodupAdjKeys (ns : List (NodeRow α β)) (es : List (EdgeRow α)) :
    NodupAdjKeys (build_graph ns es) := by
  have hnode : ∀ (rows : List (NodeRow α β)) (G : Graph α β), NodupAdjKeys G →
      NodupAdjKeys (rows.foldl (fun G r => G.add_node r.node_id r.location r.ty) G) := by
    intro rows
    induction rows with
    | nil => intro G h; exact h
    | cons r rest ih =>
      intro G h
      rw [List.foldl_cons]
      refine ih _ (fun p hp => ?_)
      rcases mem_aensure hp with rfl | hm
      · simp
      · exact h p hm
  have hensure : ∀ (G : Graph α β) (x : α), NodupAdjKeys G →
      NodupAdjKeys (G.ensureNode x) := by
    intro G x h p hp
    rcases mem_aensure hp with rfl | hm
    · simp
    · exact h p hm
  have hadj : ∀ (G : Graph α β) (a b : α) (w : ℤ), NodupAdjKeys G →
      NodupAdjKeys (G.add_edge a b w) := by
    intro G a b w h
    have h2 : NodupAdjKeys ((G.ensureNode a).ensureNode b) :=
      hensure _ _ (hensure _ _ h)
    intro p hp
    rcases mem_aupsert hp with rfl | hm
    · apply aupsert_keys_nodup
      unfold Graph.adjOf
      cases hl : alookup a ((G.ensureNode a).ensureNode b).adj with
      | none => simp
      | some l =>
        simp only [Option.getD_some]
        exact h2 (a, l) (alookup_eq_some_mem hl)
    · exact h2 p hm
  have hedge : ∀ (rows : List (EdgeRow α)) (G : Graph α β), NodupAdjKeys G →
      NodupAdjKeys (rows.foldl (fun G r => G.add_edge r.source r.target r.distance_km) G) := by
    intro rows
    induction rows with
    | nil => intro G h; exact h
    | cons r rest ih =>
      intro G h
      rw [List.foldl_cons]
      exact ih _ (hadj _ _ _ _ h)
  exact hedge es _ (hnode ns Graph.empty (fun p hp => by simp [Graph.empty] at hp))

/-- When every edge row carries a non-negative `distance_km`, the graph
`build_graph` produces has only non-negative stored weights. -/
theorem build_graph_nonneg (ns : List (NodeRow α β)) {es : List (EdgeRow α)}
    (hes : ∀ r ∈ es, 0 ≤ r.distance_km) : NonnegWeights (build_graph ns es) := by
  have hnode : ∀ (rows : List (NodeRow α β)) (G : Graph α β), NonnegWeights G →
      NonnegWeights (rows.foldl (fun G r => G.add_node r.node_id r.location r.ty) G) := by
    intro rows
    induction rows with
    | nil => intro G h; exact h
    | cons r rest ih =>
      intro G h
      rw [List.foldl_cons]
      refine ih _ (fun p hp q hq => ?_)
      rcases mem_aensure hp with rfl | hm
      · simp at hq
      · exact h p hm q hq
  have hensure : ∀ (G : Graph α β) (x : α), NonnegWeights G →
      NonnegWeights (G.ensureNode x) := by
    intro G x h p hp q hq
    rcases mem_aensure hp with rfl | hm
    · simp at hq
    · exact h p hm q hq
  have hadj : ∀ (G : Graph α β) (a b : α) (w : ℤ), 0 ≤ w → NonnegWeights G →
      NonnegWeights (G.add_edge a b w) := by
    intro G a b w hw h
    have h2 : NonnegWeights ((G.ensureNode a).ensureNode b) :=
      hensure _ _ (hensure _ _ h)
    intro p hp q hq
    rcases mem_aupsert hp with rfl | hm
    · rcases mem_aupsert hq with rfl | hq2
      · exact hw
      · exact mem_adjOf_nonneg (G := (G.ensureNode a).ensureNode b) (u := a) h2 hq2
    · exact h2 p hm q hq
  have hedge : ∀ (rows : List (EdgeRow α)), (∀ r ∈ rows, 0 ≤ r.distance_km) →
      ∀ (G : Graph α β), NonnegWeights G →
      NonnegWeights (rows.foldl (fun G r => G.add_edge r.source r.target r.distance_km) G) := by
    intro rows
    induction rows with
    | nil => intro _ G h; exact h
    | cons r rest ih =>
      intro hws G h
      rw [List.foldl_cons]
      exact ih (fun q hq => hws q (List.mem_cons_of_mem _ hq)) _
        (hadj _ _ _ _ (hws r (List.mem_cons_self _ _)) h)
  exact hedge es hes _ (hnode ns Graph.empty (fun p hp => by simp [Graph.empty] at hp))

end WellFormedBuild

section SolverInvariants

variable {α : Type} {β : Type} [DecidableEq α]

theorem aupsert_isSome_mono {y k : α} {v : β} {l : List (α × β)}
    (h : (alookup y l).isSome) : (alookup y (aupsert k v l)).isSome := by
  by_cases hyk : y = k
  · subst hyk; rw [alookup_aupsert_self]; rfl
  · rw [alookup_aupsert_ne hyk]; exact h

/-- The loop invariant of `_dijkstra_multisource` that holds for every input
graph, negative weights included (the parts needed for path-shape and
reachability claims).  All fields are stated for the solve from source `s`
over graph `G`. -/
structure InvB (G : Graph α β) (s : α) (st : DState α) : Prop where
  seen_paths : ∀ y dy, alookup y st.seen = some dy → ∃ p, alookup y st.paths = some p
  paths_seen : ∀ y p, alookup y st.paths = some p → (alookup y st.seen).isSome
  paths_walk : ∀ y p, alookup y st.paths = some p → ∃ c, WalkW G s y p c
  dist_seen : ∀ y d, alookup y st.dist = some d → alookup y st.seen = some d
  cover : ∀ y dy, alookup y st.seen = some dy → alookup y st.dist = none →
    ∃ c, (dy, c, y) ∈ st.fringe
  fringe_seen : ∀ e ∈ st.fringe, ∃ dy, alookup e.2.2 st.seen = some dy ∧ dy ≤ e.1
  edges_seen : ∀ u du, alookup u st.dist = some du → ∀ q ∈ G.adjOf u,
    (alookup q.1 st.seen).isSome
  start_case :
    (st.dist = [] ∧ st.seen = [(s, 0)] ∧ st.paths = [(s, [s])] ∧
      st.fringe = [(0, 0, s)]) ∨
    (alookup s st.dist = some 0 ∧ alookup s st.paths = some [s])

/-- The extra invariant fields available when every edge weight is
non-negative and adjacency keys are duplicate-free: tentative and final
distances are exact path weights, final distances are lower bounds on every
walk, and every edge out of the settled region has been relaxed. -/
structure InvO (G : Graph α β) (s : α) (st : DState α) extends InvB G s st : Prop where
  paths_weight : ∀ y p dy, alookup y st.paths = some p → alookup y st.seen = some dy →
    WalkW G s y p dy
  dist_lb : ∀ y d, alookup y st.dist = some d → ∀ p c, WalkW G s y p c → d ≤ c
  relaxed : ∀ u du, alookup u st.dist = some du → ∀ q ∈ G.adjOf u,
    alookup q.1 st.dist = none → ∃ dy, alookup q.1 st.seen = some dy ∧ dy ≤ du + q.2

/-- The `edges_seen` obligation during the relaxation fold over the fresh
node `v`: entries of `v`'s adjacency still in `pending` are exempt. -/
def EdgesSeenP (G : Graph α β) (v : α) (pending : List (α × ℤ)) (st : DState α) : Prop :=
  ∀ u du, alookup u st.dist = some du → ∀ q ∈ G.adjOf u,
    (u = v → q ∉ pending) → (alookup q.1 st.seen).isSome

/-- The `relaxed` obligation during the relaxation fold, with the same
exemption for pending entries. -/
def RelaxedP (G : Graph α β) (v : α) (pending : List (α × ℤ)) (st : DState α) : Prop :=
  ∀ u du, alookup u st.dist = some du → ∀ q ∈ G.adjOf u,
    (u = v → q ∉ pending) → alookup q.1 st.dist = none →
    ∃ dy, alookup q.1 st.seen = some dy ∧ dy ≤ du + q.2

/-- The base invariant as it stands midway through relaxing the edges of the
freshly settled node `v` at final distance `dv`. -/
structure FoldInvB (G : Graph α β) (s v : α) (dv : ℤ) (pending : List (α × ℤ))
    (st : DState α) : Prop where
  seen_paths : ∀ y dy, alookup y st.seen = some dy → ∃ p, alookup y st.paths = some p
  paths_seen : ∀ y p, alookup y st.paths = some p → (alookup y st.seen).isSome
  paths_walk : ∀ y p, alookup y st.paths = some p → ∃ c, WalkW G s y p c
  dist_seen : ∀ y d, alookup y st.dist = some d → alookup y st.seen = some d
  cover : ∀ y dy, alookup y st.seen = some dy → alookup y st.dist = none →
    ∃ c, (dy, c, y) ∈ st.fringe
  fringe_seen : ∀ e ∈ st.fringe, ∃ dy, alookup e.2.2 st.seen = some dy ∧ dy ≤ e.1
  edges_seenP : EdgesSeenP G v pending st
  start_right : alookup s st.dist = some 0 ∧ alookup s st.paths = some [s]
  v_dist : alookup v st.dist = some dv

/-- The optimality fields as they stand midway through the relaxation fold. -/
structure FoldInvO (G : Graph α β) (s v : α) (dv : ℤ) (pending : List (α × ℤ))
    (st : DState α) extends FoldInvB G s v dv pending st : Prop where
  paths_weight : ∀ y p dy, alookup y st.paths = some p → alookup y st.seen = some dy →
    WalkW G s y p dy
  dist_lb : ∀ y d, alookup y st.dist = some d → ∀ p c, WalkW G s y p c → d ≤ c
  relaxedP : RelaxedP G v pending st

theorem relax_foldInvB {G : Graph α β} {s v : α} {dv : ℤ} {e : α × ℤ}
    {pending : List (α × ℤ)} {st st2 : DState α}
    (hInv : FoldInvB G s v dv (e :: pending) st) (he : e ∈ G.adjOf v)
    (hok : relax v dv st e = .ok st2) : FoldInvB G s v dv pending st2 := by
  cases hdu : alookup e.1 st.dist with
  | some du =>
    simp only [relax, hdu] at hok
    by_cases hlt : dv + e.2 < du
    · rw [if_pos hlt] at hok; exact absurd hok (by simp)
    · rw [if_neg hlt] at hok
      injection hok with hok
      subst hok
      refine ⟨hInv.seen_paths, hInv.paths_seen, hInv.paths_walk, hInv.dist_seen,
        hInv.cover, hInv.fringe_seen, ?_, hInv.start_right, hInv.v_dist⟩
      intro u du2 hu q hq hcond
      by_cases hqe : q.1 = e.1
      · rw [hqe, hInv.dist_seen e.1 du hdu]; rfl
      · refine hInv.edges_seenP u du2 hu q hq (fun huv hqmem => ?_)
        rcases List.mem_cons.mp hqmem with rfl | hqp
        · exact hqe rfl
        · exact hcond huv hqp
  | none =>
    have hne : e.1 ≠ v := fun hev => by
      rw [hev, hInv.v_dist] at hdu
      exact Option.noConfusion hdu
    have hsne : e.1 ≠ s := fun hes => by
      rw [hes, hInv.start_right.1] at hdu
      exact Option.noConfusion hdu
    obtain ⟨pv, hpv⟩ := hInv.seen_paths v dv (hInv.dist_seen v dv hInv.v_dist)
    have hpush : ∀ st3 : DState α, st3 = pushState v e.1 (dv + e.2) st →
        (alookup e.1 st.seen = none ∨
          ∃ su, alookup e.1 st.seen = some su ∧ dv + e.2 < su) →
        FoldInvB G s v dv pending st3 := by
      intro st3 hst3 hcase
      have hD : st3.dist = st.dist := by rw [hst3]; rfl
      have hS : st3.seen = aupsert e.1 (dv + e.2) st.seen := by rw [hst3]; rfl
      have hF : st3.fringe = st.fringe ++ [(dv + e.2, st.counter, e.1)] := by
        rw [hst3]; rfl
      have hP : st3.paths = aupsert e.1 (pv ++ [e.1]) st.paths := by
        rw [hst3]
        show aupsert e.1 ((alookup v st.paths).getD [] ++ [e.1]) st.paths = _
        rw [hpv]
        rfl
      refine ⟨?_, ?_, ?_, ?_, ?_, ?_, ?_, ?_, ?_⟩
      · intro y dy hy
        rw [hS] at hy
        rw [hP]
        by_cases hye : y = e.1
        · subst hye
          exact ⟨pv ++ [e.1], alookup_aupsert_self _ _ _⟩
        · rw [alookup_aupsert_ne hye] at hy
          rw [alookup_aupsert_ne hye]
          exact hInv.seen_paths y dy hy
      · intro y p hy
        rw [hP] at hy
        rw [hS]
        by_cases hye : y = e.1
        · subst hye; rw [alookup_aupsert_self]; rfl
        · rw [alookup_aupsert_ne hye] at hy
          rw [alookup_aupsert_ne hye]
          exact hInv.paths_seen y p hy
      · intro y p hy
        rw [hP] at hy
        by_cases hye : y = e.1
        · subst hye
          rw [alookup_aupsert_self] at hy
          injection hy with hy
          subst hy
          obtain ⟨cv, hcv⟩ := hInv.paths_walk v pv hpv
          obtain ⟨w0, hw0⟩ := Option.isSome_iff_exists.mp (edgeWeight_isSome_of_mem_adjOf he)
          exact ⟨cv + w0, hcv.append_edge hw0⟩
        · rw [alookup_aupsert_ne hye] at hy
          exact hInv.paths_walk y p hy
      · intro y d hy
        rw [hD] at hy
        rw [hS]
        have hyne : y ≠ e.1 := fun hye => by
          rw [hye, hdu] at hy
          exact Option.noConfusion hy
        rw [alookup_aupsert_ne hyne]
        exact hInv.dist_seen y d hy
      · intro y dy hy hyd
        rw [hS] at hy
        rw [hD] at hyd
        rw [hF]
        by_cases hye : y = e.1
        · subst hye
          rw [alookup_aupsert_self] at hy
          injection hy with hy
          subst hy
          exact ⟨st.counter, List.mem_append_right _ (List.mem_singleton.mpr rfl)⟩
        · rw [alookup_aupsert_ne hye] at hy
          obtain ⟨c, hc⟩ := hInv.cover y dy hy hyd
          exact ⟨c, List.mem_append_left _ hc⟩
      · intro x hx
        rw [hF] at hx
        rw [hS]
        rcases List.mem_append.mp hx with hx | hx
        · obtain ⟨dy, hdy, hle⟩ := hInv.fringe_seen x hx
          by_cases hye : x.2.2 = e.1
          · rw [hye] at hdy
            rcases hcase with hnone | ⟨su, hsu, hlt⟩
            · rw [hnone] at hdy
              exact Option.noConfusion hdy
            · rw [hsu] at hdy
              injection hdy with hdy
              subst hdy
              rw [hye]
              exact ⟨dv + e.2, alookup_aupsert_self _ _ _,
                le_of_lt (lt_of_lt_of_le hlt hle)⟩
          · refine ⟨dy, ?_, hle⟩
            rw [alookup_aupsert_ne hye]
            exact hdy
        · rw [List.mem_singleton.mp hx]
          exact ⟨dv + e.2, alookup_aupsert_self _ _ _, le_refl _⟩
      · intro u du2 hu q hq hcond
        rw [hD] at hu
        rw [hS]
        by_cases hqe : q.1 = e.1
        · rw [hqe, alookup_aupsert_self]; rfl
        · rw [alookup_aupsert_ne hqe]
          refine hInv.edges_seenP u du2 hu q hq (fun huv hqmem => ?_)
          rcases List.mem_cons.mp hqmem with rfl | hqp
          · exact hqe rfl
          · exact hcond huv hqp
      · rw [hD, hP]
        refine ⟨hInv.start_right.1, ?_⟩
        rw [alookup_aupsert_ne (fun hse => hsne hse.symm)]
        exact hInv.start_right.2
      · rw [hD]
        exact hInv.v_dist
    cases hsu : alookup e.1 st.seen with
    | some su =>
      simp only [relax, hdu, hsu] at hok
      by_cases hlt : dv + e.2 < su
      · rw [if_pos hlt] at hok
        injection hok with hok
        exact hpush st2 hok.symm (Or.inr ⟨su, hsu, hlt⟩)
      · rw [if_neg hlt] at hok
        injection hok with hok
        subst hok
        refine ⟨hInv.seen_paths, hInv.paths_seen, hInv.paths_walk, hInv.dist_seen,
          hInv.cover, hInv.fringe_seen, ?_, hInv.start_right, hInv.v_dist⟩
        intro u du2 hu q hq hcond
        by_cases hqe : q.1 = e.1
        · rw [hqe, hsu]; rfl
        · refine hInv.edges_seenP u du2 hu q hq (fun huv hqmem => ?_)
          rcases List.mem_cons.mp hqmem with rfl | hqp
          · exact hqe rfl
          · exact hcond huv hqp
    | none =>
      simp only [relax, hdu, hsu] at hok
      injection hok with hok
      exact hpush st2 hok.symm (Or.inl hsu)

theorem foldRelax_foldInvB {G : Graph α β} {s v : α} {dv : ℤ} :
    ∀ {pending : List (α × ℤ)} {st st2 : DState α},
    FoldInvB G s v dv pending st → (∀ q ∈ pending, q ∈ G.adjOf v) →
    foldRelax v dv st pending = .ok st2 → FoldInvB G s v dv [] st2 := by
  intro pending
  induction pending with
  | nil =>
    intro st st2 hInv hsub hok
    unfold foldRelax at hok
    injection hok with hok
    subst hok
    exact hInv
  | cons e rest ih =>
    intro st st2 hInv hsub hok
    unfold foldRelax at hok
    cases hr : relax v dv st e with
    | error err => rw [hr] at hok; exact absurd hok (by simp)
    | ok st3 =>
      rw [hr] at hok
      have h3 := relax_foldInvB hInv (hsub e (List.mem_cons_self _ _)) hr
      exact ih h3 (fun q hq => hsub q (List.mem_cons_of_mem _ hq)) hok

theorem relax_foldInvO {G : Graph α β} {s v : α} {dv : ℤ} {e : α × ℤ}
    {pending : List (α × ℤ)} {st st2 : DState α} (hWF : NodupAdjKeys G)
    (hInv : FoldInvO G s v dv (e :: pending) st) (he : e ∈ G.adjOf v)
    (hok : relax v dv st e = .ok st2) : FoldInvO G s v dv pending st2 := by
  have hbase := relax_foldInvB hInv.toFoldInvB he hok
  have hold : ∀ u du2 q, alookup u st.dist = some du2 → q ∈ G.adjOf u →
      q ≠ e ∨ u ≠ v → (u = v → q ∉ pending) → alookup q.1 st.dist = none →
      ∃ dy, alookup q.1 st.seen = some dy ∧ dy ≤ du2 + q.2 := by
    intro u du2 q hu hq hne hcond hqd
    refine hInv.relaxedP u du2 hu q hq (fun huv hqmem => ?_) hqd
    rcases List.mem_cons.mp hqmem with rfl | hqp
    · rcases hne with hne | hne
      · exact hne rfl
      · exact hne huv
    · exact hcond huv hqp
  cases hdu : alookup e.1 st.dist with
  | some du =>
    simp only [relax, hdu] at hok
    by_cases hlt : dv + e.2 < du
    · rw [if_pos hlt] at hok; exact absurd hok (by simp)
    · rw [if_neg hlt] at hok
      injection hok with hok
      subst hok
      refine ⟨hbase, hInv.paths_weight, hInv.dist_lb, ?_⟩
      intro u du2 hu q hq hcond hqd
      by_cases hqe : q.1 = e.1
      · rw [hqe, hdu] at hqd
        exact Option.noConfusion hqd
      · refine hold u du2 q hu hq (Or.inl (fun hqeq => hqe (by rw [hqeq]))) hcond hqd
  | none =>
    obtain ⟨pv, hpv⟩ := hInv.seen_paths v dv (hInv.dist_seen v dv hInv.v_dist)
    have hwv : WalkW G s v pv dv :=
      hInv.paths_weight v pv dv hpv (hInv.dist_seen v dv hInv.v_dist)
    have hew : G.edgeWeight v e.1 = some e.2 := edgeWeight_of_mem_adjOf_nodup hWF he
    have hwnew : WalkW G s e.1 (pv ++ [e.1]) (dv + e.2) := hwv.append_edge hew
    have hpush : ∀ st3 : DState α, st3 = pushState v e.1 (dv + e.2) st →
        (alookup e.1 st.seen = none ∨
          ∃ su, alookup e.1 st.seen = some su ∧ dv + e.2 < su) →
        FoldInvB G s v dv pending st3 → FoldInvO G s v dv pending st3 := by
      intro st3 hst3 hcase hb
      have hD : st3.dist = st.dist := by rw [hst3]; rfl
      have hS : st3.seen = aupsert e.1 (dv + e.2) st.seen := by rw [hst3]; rfl
      have hP : st3.paths = aupsert e.1 (pv ++ [e.1]) st.paths := by
        rw [hst3]
        show aupsert e.1 ((alookup v st.paths).getD [] ++ [e.1]) st.paths = _
        rw [hpv]
        rfl
      refine ⟨hb, ?_, ?_, ?_⟩
      · intro y p dy hy hdy
        rw [hP] at hy
        rw [hS] at hdy
        by_cases hye : y = e.1
        · subst hye
          rw [alookup_aupsert_self] at hy hdy
          injection hy with hy
          injection hdy with hdy
          subst hy; subst hdy
          exact hwnew
        · rw [alookup_aupsert_ne hye] at hy hdy
          exact hInv.paths_weight y p dy hy hdy
      · intro y d hy
        rw [hD] at hy
        exact hInv.dist_lb y d hy
      · intro u du2 hu q hq hcond hqd
        rw [hD] at hu hqd
        rw [hS]
        by_cases hqe : q.1 = e.1
        · refine ⟨dv + e.2, by rw [hqe]; exact alookup_aupsert_self _ _ _, ?_⟩
          by_cases huv : u = v
          · subst huv
            have hdu2 : du2 = dv := by
              rw [hInv.v_dist] at hu
              injection hu with hu
              exact hu.symm
            have hq2 : G.edgeWeight u q.1 = some q.2 :=
              edgeWeight_of_mem_adjOf_nodup hWF hq
            rw [hqe, hew] at hq2
            injection hq2 with hq2
            rw [hdu2, hq2]
          · obtain ⟨dy, hdy, hdyle⟩ :=
              hold u du2 q hu hq (Or.inr huv) hcond hqd
            rw [hqe] at hdy
            rcases hcase with hnone | ⟨su, hsu, hlt⟩
            · rw [hnone] at hdy
              exact Option.noConfusion hdy
            · rw [hsu] at hdy
              injection hdy with hdy
              subst hdy
              omega
        · obtain ⟨dy, hdy, hdyle⟩ :=
            hold u du2 q hu hq (Or.inl (fun hqeq => hqe (by rw [hqeq]))) hcond hqd
          refine ⟨dy, ?_, hdyle⟩
          rw [alookup_aupsert_ne hqe]
          exact hdy
    cases hsu : alookup e.1 st.seen with
    | some su =>
      simp only [relax, hdu, hsu] at hok
      by_cases hlt : dv + e.2 < su
      · rw [if_pos hlt] at hok
        injection hok with hok
        exact hpush st2 hok.symm (Or.inr ⟨su, hsu, hlt⟩) hbase
      · rw [if_neg hlt] at hok
        injection hok with hok
        subst hok
        refine ⟨hbase, hInv.paths_weight, hInv.dist_lb, ?_⟩
        intro u du2 hu q hq hcond hqd
        by_cases hqe : q.1 = e.1
        · by_cases huv : u = v
          · subst huv
            have hdu2 : du2 = dv := by
              rw [hInv.v_dist] at hu
              injection hu with hu
              exact hu.symm
            have hq2 : G.edgeWeight u q.1 = some q.2 :=
              edgeWeight_of_mem_adjOf_nodup hWF hq
            rw [hqe, edgeWeight_of_mem_adjOf_nodup hWF he] at hq2
            injection hq2 with hq2
            refine ⟨su, by rw [hqe]; exact hsu, ?_⟩
            rw [hdu2, ← hq2]
            omega
          · exact hold u du2 q hu hq (Or.inr huv) hcond hqd
        · exact hold u du2 q hu hq (Or.inl (fun hqeq => hqe (by rw [hqeq]))) hcond hqd
    | none =>
      simp only [relax, hdu, hsu] at hok
      injection hok with hok
      exact hpush st2 hok.symm (Or.inl hsu) hbase

theorem foldRelax_foldInvO {G : Graph α β} {s v : α} {dv : ℤ} (hWF : NodupAdjKeys G) :
    ∀ {pending : List (α × ℤ)} {st st2 : DState α},
    FoldInvO G s v dv pending st → (∀ q ∈ pending, q ∈ G.adjOf v) →
    foldRelax v dv st pending = .ok st2 → FoldInvO G s v dv [] st2 := by
  intro pending
  induction pending with
  | nil =>
    intro st st2 hInv hsub hok
    unfold foldRelax at hok
    injection hok with hok
    subst hok
    exact hInv
  | cons e rest ih =>
    intro st st2 hInv hsub hok
    unfold foldRelax at hok
    cases hr : relax v dv st e with
    | error err => rw [hr] at hok; exact absurd hok (by simp)
    | ok st3 =>
      rw [hr] at hok
      have h3 := relax_foldInvO hWF hInv (hsub e (List.mem_cons_self _ _)) hr
      exact ih h3 (fun q hq => hsub q (List.mem_cons_of_mem _ hq)) hok

theorem stale_invB {G : Graph α β} {s : α} {st : DState α} {x : ℤ × ℕ × α}
    {rest : List (ℤ × ℕ × α)} (hInv : InvB G s st)
    (hp : popMin st.fringe = some (x, rest))
    (hstale : (alookup x.2.2 st.dist).isSome) :
    InvB G s { st with fringe := rest } := by
  refine ⟨hInv.seen_paths, hInv.paths_seen, hInv.paths_walk, hInv.dist_seen,
    ?_, ?_, hInv.edges_seen, ?_⟩
  · intro y dy hy hyd
    obtain ⟨c, hc⟩ := hInv.cover y dy hy hyd
    refine ⟨c, popMin_rest_of_mem hp hc (fun he => ?_)⟩
    have : y = x.2.2 := by rw [← he]
    rw [← this] at hstale
    rw [hyd] at hstale
    exact Bool.noConfusion hstale
  · intro e hee
    exact hInv.fringe_seen e (popMin_mem_of_mem_rest hp hee)
  · rcases hInv.start_case with ⟨hd, _, _, _⟩ | hr
    · rw [hd] at hstale
      exact absurd hstale (by simp [alookup])
    · exact Or.inr hr

theorem stale_invO {G : Graph α β} {s : α} {st : DState α} {x : ℤ × ℕ × α}
    {rest : List (ℤ × ℕ × α)} (hInv : InvO G s st)
    (hp : popMin st.fringe = some (x, rest))
    (hstale : (alookup x.2.2 st.dist).isSome) :
    InvO G s { st with fringe := rest } :=
  ⟨stale_invB hInv.toInvB hp hstale, hInv.paths_weight, hInv.dist_lb, hInv.relaxed⟩

theorem fresh_pop_facts {G : Graph α β} {s : α} {st : DState α} {x : ℤ × ℕ × α}
    {rest : List (ℤ × ℕ × α)} (hInv : InvB G s st)
    (hp : popMin st.fringe = some (x, rest))
    (hfresh : alookup x.2.2 st.dist = none) :
    alookup x.2.2 st.seen = some x.1 := by
  obtain ⟨sv, hsv, hsvle⟩ := hInv.fringe_seen x (popMin_mem hp)
  obtain ⟨c, hc⟩ := hInv.cover x.2.2 sv hsv hfresh
  have hmin := popMin_min hp (sv, c, x.2.2) hc
  have : x.1 ≤ sv := by
    rcases hmin with h | ⟨h, _⟩
    · exact le_of_lt h
    · exact le_of_eq h
  have : sv = x.1 := le_antisymm hsvle this
  rw [← this]
  exact hsv

theorem fresh_foldInvB {G : Graph α β} {s : α} {st : DState α} {x : ℤ × ℕ × α}
    {rest : List (ℤ × ℕ × α)} (hInv : InvB G s st)
    (hp : popMin st.fringe = some (x, rest))
    (hfresh : alookup x.2.2 st.dist = none) :
    FoldInvB G s x.2.2 x.1 (G.adjOf x.2.2)
      { st with dist := st.dist ++ [(x.2.2, x.1)], fringe := rest } := by
  have hseen := fresh_pop_facts hInv hp hfresh
  have hself : alookup x.2.2 (st.dist ++ [(x.2.2, x.1)]) = some x.1 :=
    alookup_append_single_self hfresh x.1
  have hne : ∀ y : α, y ≠ x.2.2 →
      alookup y (st.dist ++ [(x.2.2, x.1)]) = alookup y st.dist := by
    intro y hy
    exact alookup_append_single_ne (fun he => hy he.symm) x.1 st.dist
  refine ⟨hInv.seen_paths, hInv.paths_seen, hInv.paths_walk, ?_, ?_, ?_, ?_, ?_, hself⟩
  · intro y d hy
    by_cases hyx : y = x.2.2
    · subst hyx
      rw [hself] at hy
      injection hy with hy
      subst hy
      exact hseen
    · rw [hne y hyx] at hy
      exact hInv.dist_seen y d hy
  · intro y dy hy hyd
    have hyx : y ≠ x.2.2 := by
      intro he
      rw [he, hself] at hyd
      exact Option.noConfusion hyd
    rw [hne y hyx] at hyd
    obtain ⟨c, hc⟩ := hInv.cover y dy hy hyd
    refine ⟨c, popMin_rest_of_mem hp hc (fun he => hyx (by rw [← he]))⟩
  · intro e hee
    exact hInv.fringe_seen e (popMin_mem_of_mem_rest hp hee)
  · intro u du hu q hq hcond
    by_cases huv : u = x.2.2
    · rw [huv] at hq
      exact absurd hq (hcond huv)
    · rw [hne u huv] at hu
      exact hInv.edges_seen u du hu q hq
  · rcases hInv.start_case with ⟨hd, hse, hpa, hf⟩ | ⟨h0, hps⟩
    · rw [hf] at hp
      have hsingle : popMin [((0 : ℤ), (0 : ℕ), s)] = some ((0, 0, s), []) := rfl
      rw [hsingle] at hp
      injection hp with hp
      injection hp with hp1 hp2
      constructor
      · rw [← hp1, hd]
        simp [alookup]
      · rw [← hp1, hpa]
        simp [alookup]
    · constructor
      · have hsx : s ≠ x.2.2 := by
          intro he
          rw [← he, h0] at hfresh
          exact Option.noConfusion hfresh
        rw [hne s hsx]
        exact h0
      · exact hps

theorem cut_aux {G : Graph α β} {s : α} {st : DState α} (hNN : NonnegWeights G)
    (hInv : InvO G s st) {x : ℤ × ℕ × α} {rest : List (ℤ × ℕ × α)}
    (hp : popMin st.fringe = some (x, rest)) :
    ∀ {u t : α} {p : List α} {cc : ℤ}, WalkW G u t p cc →
    ∀ du, alookup u st.dist = some du → alookup t st.dist = none → x.1 ≤ du + cc := by
  intro u t p cc hw
  induction hw with
  | single z =>
    intro du hu ht
    rw [hu] at ht
    exact Option.noConfusion ht
  | cons u w t p w0 c0 he hwr ih =>
    intro du hu ht
    cases hwd : alookup w st.dist with
    | some dw =>
      have h1 : x.1 ≤ dw + c0 := ih dw hwd ht
      obtain ⟨pu, hpu⟩ := hInv.seen_paths u du (hInv.dist_seen u du hu)
      have hwu : WalkW G s u pu du :=
        hInv.paths_weight u pu du hpu (hInv.dist_seen u du hu)
      have h2 : dw ≤ du + w0 :=
        hInv.dist_lb w dw hwd _ _ (hwu.append_edge he)
      omega
    | none =>
      have he' : alookup w (G.adjOf u) = some w0 := he
      obtain ⟨dy, hdy, hdyle⟩ :=
        hInv.relaxed u du hu (w, w0) (alookup_eq_some_mem he') hwd
      obtain ⟨c', hc'⟩ := hInv.cover w dy hdy hwd
      have hmin := popMin_min hp (dy, c', w) hc'
      have hxdy : x.1 ≤ dy := by
        rcases hmin with h | ⟨h, _⟩
        · exact le_of_lt h
        · exact le_of_eq h
      have hc0 : 0 ≤ c0 := hwr.weight_nonneg hNN
      omega

theorem cut_lemma {G : Graph α β} {s : α} {st : DState α} (hNN : NonnegWeights G)
    (hInv : InvO G s st) {x : ℤ × ℕ × α} {rest : List (ℤ × ℕ × α)}
    (hp : popMin st.fringe = some (x, rest))
    (hfresh : alookup x.2.2 st.dist = none) :
    ∀ p cc, WalkW G s x.2.2 p cc → x.1 ≤ cc := by
  intro p cc hw
  cases hsd : alookup s st.dist with
  | some ds =>
    have hds : ds = 0 := by
      rcases hInv.start_case with ⟨hd, _, _, _⟩ | ⟨h0, _⟩
      · rw [hd] at hsd
        exact absurd hsd (by simp [alookup])
      · rw [h0] at hsd
        injection hsd with h
        exact h.symm
    have := cut_aux hNN hInv hp hw ds hsd hfresh
    omega
  | none =>
    rcases hInv.start_case with ⟨hd, hse, hpa, hf⟩ | ⟨h0, _⟩
    · rw [hf] at hp
      have hsingle : popMin [((0 : ℤ), (0 : ℕ), s)] = some ((0, 0, s), []) := rfl
      rw [hsingle] at hp
      injection hp with hp
      injection hp with hp1 hp2
      have hx1 : x.1 = 0 := by rw [← hp1]
      rw [hx1]
      exact hw.weight_nonneg hNN
    · rw [h0] at hsd
      exact Option.noConfusion hsd

theorem fresh_foldInvO {G : Graph α β} {s : α} {st : DState α} {x : ℤ × ℕ × α}
    {rest : List (ℤ × ℕ × α)} (hNN : NonnegWeights G) (hInv : InvO G s st)
    (hp : popMin st.fringe = some (x, rest))
    (hfresh : alookup x.2.2 st.dist = none) :
    FoldInvO G s x.2.2 x.1 (G.adjOf x.2.2)
      { st with dist := st.dist ++ [(x.2.2, x.1)], fringe := rest } := by
  have hbase := fresh_foldInvB hInv.toInvB hp hfresh
  have hself : alookup x.2.2 (st.dist ++ [(x.2.2, x.1)]) = some x.1 :=
    alookup_append_single_self hfresh x.1
  have hne : ∀ y : α, y ≠ x.2.2 →
      alookup y (st.dist ++ [(x.2.2, x.1)]) = alookup y st.dist := by
    intro y hy
    exact alookup_append_single_ne (fun he => hy he.symm) x.1 st.dist
  refine ⟨hbase, hInv.paths_weight, ?_, ?_⟩
  · intro y d hy p c hw
    by_cases hyx : y = x.2.2
    · subst hyx
      rw [hself] at hy
      injection hy with hy
      subst hy
      exact cut_lemma hNN hInv hp hfresh p c hw
    · rw [hne y hyx] at hy
      exact hInv.dist_lb y d hy p c hw
  · intro u du hu q hq hcond hqd
    by_cases huv : u = x.2.2
    · rw [huv] at hq
      exact absurd hq (hcond huv)
    · rw [hne u huv] at hu
      have hqx : q.1 ≠ x.2.2 := by
        intro he
        rw [he, hself] at hqd
        exact Option.noConfusion hqd
      rw [hne q.1 hqx] at hqd
      exact hInv.relaxed u du hu q hq hqd

theorem foldInvB_to_invB {G : Graph α β} {s v : α} {dv : ℤ} {st : DState α}
    (h : FoldInvB G s v dv [] st) : InvB G s st :=
  ⟨h.seen_paths, h.paths_seen, h.paths_walk, h.dist_seen, h.cover, h.fringe_seen,
    fun u du hu q hq => h.edges_seenP u du hu q hq (fun _ => List.not_mem_nil q),
    Or.inr h.start_right⟩

theorem foldInvO_to_invO {G : Graph α β} {s v : α} {dv : ℤ} {st : DState α}
    (h : FoldInvO G s v dv [] st) : InvO G s st :=
  ⟨foldInvB_to_invB h.toFoldInvB, h.paths_weight, h.dist_lb,
    fun u du hu q hq hqd =>
      h.relaxedP u du hu q hq (fun _ => List.not_mem_nil q) hqd⟩

/-- What the base invariant yields once the fringe is empty: the conclusions
of the solver about its returned `(dist, paths)` pair that hold for every
input graph. -/
structure BaseOut (G : Graph α β) (s : α) (D : List (α × ℤ)) (P : List (α × List α)) :
    Prop where
  paths_walk : ∀ t p, alookup t P = some p → ∃ c, WalkW G s t p c
  keys_iff : ∀ t, (alookup t P).isSome ↔ (alookup t D).isSome
  self_dist : alookup s D = some 0
  self_path : alookup s P = some [s]
  complete : ∀ t p c, WalkW G s t p c → (alookup t D).isSome

/-- What the optimality invariant yields once the fringe is empty. -/
structure OptOut (G : Graph α β) (s : α) (D : List (α × ℤ)) (P : List (α × List α)) :
    Prop where
  exact_weight : ∀ t p d, alookup t P = some p → alookup t D = some d → WalkW G s t p d
  minimal : ∀ t d, alookup t D = some d → ∀ p c, WalkW G s t p c → d ≤ c

theorem finalB {G : Graph α β} {s : α} {st : DState α} (hInv : InvB G s st)
    (hempty : st.fringe = []) : BaseOut G s st.dist st.paths := by
  have hsfacts : alookup s st.dist = some 0 ∧ alookup s st.paths = some [s] := by
    rcases hInv.start_case with ⟨_, _, _, hf⟩ | hr
    · rw [hempty] at hf
      exact absurd hf (by simp)
    · exact hr
  have hseen_dist : ∀ y dy, alookup y st.seen = some dy → (alookup y st.dist).isSome := by
    intro y dy hy
    cases hyd : alookup y st.dist with
    | none =>
      obtain ⟨c, hc⟩ := hInv.cover y dy hy hyd
      rw [hempty] at hc
      exact absurd hc (by simp)
    | some d => rfl
  refine ⟨hInv.paths_walk, ?_, hsfacts.1, hsfacts.2, ?_⟩
  · intro t
    constructor
    · intro hP
      obtain ⟨p, hp⟩ := Option.isSome_iff_exists.mp hP
      obtain ⟨dy, hdy⟩ := Option.isSome_iff_exists.mp (hInv.paths_seen t p hp)
      exact hseen_dist t dy hdy
    · intro hD
      obtain ⟨d, hd⟩ := Option.isSome_iff_exists.mp hD
      obtain ⟨p, hp⟩ := hInv.seen_paths t d (hInv.dist_seen t d hd)
      rw [hp]
      rfl
  · have hstep : ∀ u t p c, WalkW G u t p c →
        (alookup u st.dist).isSome → (alookup t st.dist).isSome := by
      intro u t p c hw
      induction hw with
      | single z => intro h; exact h
      | cons u w t p w0 c0 he hwr ih =>
        intro hu
        obtain ⟨du, hdu⟩ := Option.isSome_iff_exists.mp hu
        have he' : alookup w (G.adjOf u) = some w0 := he
        have hmem := alookup_eq_some_mem he'
        obtain ⟨dy, hdy⟩ := Option.isSome_iff_exists.mp
          (hInv.edges_seen u du hdu (w, w0) hmem)
        exact ih (hseen_dist w dy hdy)
    intro t p c hw
    exact hstep s t p c hw (by rw [hsfacts.1]; rfl)

theorem finalO {G : Graph α β} {s : α} {st : DState α} (hInv : InvO G s st)
    (hempty : st.fringe = []) : OptOut G s st.dist st.paths := by
  refine ⟨?_, ?_⟩
  · intro t p d hp hd
    exact hInv.paths_weight t p d hp (hInv.dist_seen t d hd)
  · intro t d hd p c hw
    exact hInv.dist_lb t d hd p c hw

theorem dloopF_zero (G : Graph α β) (st : DState α) :
    dloopF G 0 st =
      match popMin st.fringe with
      | none => .ok (st.dist, st.paths)
      | some _ => .error .outOfFuel := rfl

theorem dloopF_succ (G : Graph α β) (n : ℕ) (st : DState α) :
    dloopF G (n + 1) st =
      match popMin st.fringe with
      | none => .ok (st.dist, st.paths)
      | some (x, rest) =>
        if (alookup x.2.2 st.dist).isSome then
          dloopF G n { st with fringe := rest }
        else
          match foldRelax x.2.2 x.1
              { st with dist := st.dist ++ [(x.2.2, x.1)], fringe := rest }
              (G.adjOf x.2.2) with
          | .error err => .error err
          | .ok st2 => dloopF G n st2 := rfl

theorem dloopF_invB {G : Graph α β} {s : α} :
    ∀ (n : ℕ) (st : DState α) (D : List (α × ℤ)) (P : List (α × List α)),
    InvB G s st → dloopF G n st = .ok (D, P) → BaseOut G s D P := by
  intro n
  induction n with
  | zero =>
    intro st D P hInv hok
    cases hp : popMin st.fringe with
    | none =>
      simp only [dloopF_zero, hp] at hok
      injection hok with hok
      injection hok with h1 h2
      subst h1; subst h2
      exact finalB hInv ((popMin_none_iff _).mp hp)
    | some pr =>
      simp only [dloopF_zero, hp] at hok
      exact absurd hok (by simp)
  | succ n ih =>
    intro st D P hInv hok
    cases hp : popMin st.fringe with
    | none =>
      simp only [dloopF_succ, hp] at hok
      injection hok with hok
      injection hok with h1 h2
      subst h1; subst h2
      exact finalB hInv ((popMin_none_iff _).mp hp)
    | some pr =>
      obtain ⟨x, rest⟩ := pr
      simp only [dloopF_succ, hp] at hok
      by_cases hd : (alookup x.2.2 st.dist).isSome
      · rw [if_pos hd] at hok
        exact ih _ D P (stale_invB hInv hp hd) hok
      · rw [if_neg hd] at hok
        rw [Option.not_isSome_iff_eq_none] at hd
        cases hf : foldRelax x.2.2 x.1
            { st with dist := st.dist ++ [(x.2.2, x.1)], fringe := rest }
            (G.adjOf x.2.2) with
        | error err => rw [hf] at hok; exact absurd hok (by simp)
        | ok st2 =>
          rw [hf] at hok
          have h1 := fresh_foldInvB hInv hp hd
          have h2 := foldRelax_foldInvB h1 (fun q hq => hq) hf
          exact ih _ D P (foldInvB_to_invB h2) hok

theorem dloopF_invO {G : Graph α β} {s : α} (hWF : NodupAdjKeys G)
    (hNN : NonnegWeights G) :
    ∀ (n : ℕ) (st : DState α) (D : List (α × ℤ)) (P : List (α × List α)),
    InvO G s st → dloopF G n st = .ok (D, P) → OptOut G s D P := by
  intro n
  induction n with
  | zero =>
    intro st D P hInv hok
    cases hp : popMin st.fringe with
    | none =>
      simp only [dloopF_zero, hp] at hok
      injection hok with hok
      injection hok with h1 h2
      subst h1; subst h2
      exact finalO hInv ((popMin_none_iff _).mp hp)
    | some pr =>
      simp only [dloopF_zero, hp] at hok
      exact absurd hok (by simp)
  | succ n ih =>
    intro st D P hInv hok
    cases hp : popMin st.fringe with
    | none =>
      simp only [dloopF_succ, hp] at hok
      injection hok with hok
      injection hok with h1 h2
      subst h1; subst h2
      exact finalO hInv ((popMin_none_iff _).mp hp)
    | some pr =>
      obtain ⟨x, rest⟩ := pr
      simp only [dloopF_succ, hp] at hok
      by_cases hd : (alookup x.2.2 st.dist).isSome
      · rw [if_pos hd] at hok
        exact ih _ D P (stale_invO hInv hp hd) hok
      · rw [if_neg hd] at hok
        rw [Option.not_isSome_iff_eq_none] at hd
        cases hf : foldRelax x.2.2 x.1
            { st with dist := st.dist ++ [(x.2.2, x.1)], fringe := rest }
            (G.adjOf x.2.2) with
        | error err => rw [hf] at hok; exact absurd hok (by simp)
        | ok st2 =>
          rw [hf] at hok
          have h1 := fresh_foldInvO hNN hInv hp hd
          have h2 := foldRelax_foldInvO hWF h1 (fun q hq => hq) hf
          exact ih _ D P (foldInvO_to_invO h2) hok

theorem invB_init (G : Graph α β) (s : α) :
    InvB G s ⟨[], [(s, 0)], [(s, [s])], [(0, 0, s)], 1⟩ := by
  refine ⟨?_, ?_, ?_, ?_, ?_, ?_, ?_, ?_⟩
  · intro y dy hy
    have : s = y := by
      by_contra hne
      simp [alookup, hne] at hy
    subst this
    exact ⟨[s], by simp [alookup]⟩
  · intro y p hy
    have : s = y := by
      by_contra hne
      simp [alookup, hne] at hy
    subst this
    simp [alookup]
  · intro y p hy
    have hsy : s = y := by
      by_contra hne
      simp [alookup, hne] at hy
    subst hsy
    have : p = [s] := by
      simp [alookup] at hy
      exact hy.symm
    subst this
    exact ⟨0, WalkW.single s⟩
  · intro y d hy
    simp [alookup] at hy
  · intro y dy hy hyd
    have hsy : s = y := by
      by_contra hne
      simp [alookup, hne] at hy
    subst hsy
    have : dy = 0 := by
      simp [alookup] at hy
      exact hy.symm
    subst this
    exact ⟨0, List.mem_singleton.mpr rfl⟩
  · intro e he
    rw [List.mem_singleton.mp he]
    exact ⟨0, by simp [alookup], le_refl _⟩
  · intro u du hu
    simp [alookup] at hu
  · exact Or.inl ⟨rfl, rfl, rfl, rfl⟩

theorem invO_init (G : Graph α β) (s : α) :
    InvO G s ⟨[], [(s, 0)], [(s, [s])], [(0, 0, s)], 1⟩ := by
  refine ⟨invB_init G s, ?_, ?_, ?_⟩
  · intro y p dy hy hdy
    have hsy : s = y := by
      by_contra hne
      simp [alookup, hne] at hy
    subst hsy
    have hp : p = [s] := by
      simp [alookup] at hy
      exact hy.symm
    have hd : dy = 0 := by
      simp [alookup] at hdy
      exact hdy.symm
    subst hp; subst hd
    exact WalkW.single s
  · intro y d hy
    simp [alookup] at hy
  · intro u du hu
    simp [alookup] at hu

/-- The two dicts returned by a completed `single_source_dijkstra` satisfy
the base conclusions (paths are walks from the source, keys of `paths` and
`lengths` agree, the source maps to `([s], 0)`, and every walkable target
has an entry). -/
theorem single_source_dijkstra_base {G : Graph α β} {s : α}
    {D : List (α × ℤ)} {P : List (α × List α)}
    (hok : single_source_dijkstra G s = .ok (D, P)) : BaseOut G s D P :=
  dloopF_invB (dijkstraFuel G) _ D P (invB_init G s) hok

/-- The two dicts returned by a completed `single_source_dijkstra` on a
well-formed graph with non-negative weights satisfy the optimality
conclusions. -/
theorem single_source_dijkstra_opt {G : Graph α β} {s : α} (hWF : NodupAdjKeys G)
    (hNN : NonnegWeights G) {D : List (α × ℤ)} {P : List (α × List α)}
    (hok : single_source_dijkstra G s = .ok (D, P)) : OptOut G s D P :=
  dloopF_invO hWF hNN (dijkstraFuel G) _ D P (invO_init G s) hok

end SolverInvariants

section Totality

variable {α : Type} {β : Type} [DecidableEq α]

/-- The part of the loop measure contributed by adjacency entries whose key
is not yet settled. -/
def adjWeight (dist : List (α × ℤ)) : List (α × List (α × ℤ)) → ℕ
  | [] => 0
  | p :: rest => (if (alookup p.1 dist).isSome then 0 else p.2.length) + adjWeight dist rest

/-- The loop measure: every iteration of `dloopF` strictly decreases it, so
`dijkstraFuel` (its initial value) never runs out. -/
def phiMeasure (G : Graph α β) (st : DState α) : ℕ :=
  st.fringe.length + adjWeight st.dist G.adj

theorem adjWeight_nil_dist (l : List (α × List (α × ℤ))) :
    adjWeight ([] : List (α × ℤ)) l = (l.map (fun p => p.2.length)).sum := by
  induction l with
  | nil => rfl
  | cons p rest ih =>
    simp only [adjWeight, List.map_cons, List.sum_cons, ih]
    rfl

theorem adjWeight_mono {dist dist' : List (α × ℤ)}
    (h : ∀ y, (alookup y dist).isSome → (alookup y dist').isSome)
    (l : List (α × List (α × ℤ))) : adjWeight dist' l ≤ adjWeight dist l := by
  induction l with
  | nil => exact le_refl _
  | cons p rest ih =>
    simp only [adjWeight]
    refine Nat.add_le_add ?_ ih
    by_cases hp : (alookup p.1 dist).isSome
    · rw [if_pos hp, if_pos (h p.1 hp)]
    · rw [if_neg hp]
      by_cases hp' : (alookup p.1 dist').isSome
      · rw [if_pos hp']
        exact Nat.zero_le _
      · rw [if_neg hp']

theorem adjWeight_fresh {dist : List (α × ℤ)} {v : α} {d : ℤ}
    (hfresh : alookup v dist = none) (l : List (α × List (α × ℤ))) :
    adjWeight (dist ++ [(v, d)]) l + ((alookup v l).getD []).length ≤
      adjWeight dist l := by
  have hmono : ∀ y, (alookup y dist).isSome → (alookup y (dist ++ [(v, d)])).isSome := by
    intro y hy
    obtain ⟨w, hw⟩ := Option.isSome_iff_exists.mp hy
    rw [alookup_append, hw]
    rfl
  induction l with
  | nil => simp [adjWeight, alookup]
  | cons p rest ih =>
    obtain ⟨a, entries⟩ := p
    simp only [adjWeight, alookup_cons]
    by_cases hav : a = v
    · subst hav
      rw [if_pos rfl]
      simp only [Option.getD_some]
      have h1 : alookup a (dist ++ [(a, d)]) = some d :=
        alookup_append_single_self hfresh d
      rw [if_pos (by rw [h1]; rfl), if_neg (by rw [hfresh]; simp)]
      have h2 : adjWeight (dist ++ [(a, d)]) rest ≤ adjWeight dist rest :=
        adjWeight_mono hmono rest
      omega
    · rw [if_neg hav]
      have h1 : alookup a (dist ++ [(v, d)]) = alookup a dist :=
        alookup_append_single_ne (fun he => hav he.symm) d dist
      rw [h1]
      have := ih
      by_cases ha : (alookup a dist).isSome
      · rw [if_pos ha]
        omega
      · rw [if_neg ha]
        omega

theorem relax_effects {v : α} {dv : ℤ} {st st2 : DState α} {e : α × ℤ}
    (h : relax v dv st e = .ok st2) :
    st2.dist = st.dist ∧ st2.fringe.length ≤ st.fringe.length + 1 := by
  unfold relax at h
  cases hdu : alookup e.1 st.dist with
  | some du =>
    simp only [hdu] at h
    by_cases hlt : dv + e.2 < du
    · rw [if_pos hlt] at h; exact absurd h (by simp)
    · rw [if_neg hlt] at h
      injection h with h
      subst h
      exact ⟨rfl, by omega⟩
  | none =>
    simp only [hdu] at h
    cases hsu : alookup e.1 st.seen with
    | some su =>
      simp only [hsu] at h
      by_cases hlt : dv + e.2 < su
      · rw [if_pos hlt] at h
        injection h with h
        subst h
        refine ⟨rfl, ?_⟩
        show (st.fringe ++ [(dv + e.2, st.counter, e.1)]).length ≤ st.fringe.length + 1
        rw [List.length_append]
        rfl
      · rw [if_neg hlt] at h
        injection h with h
        subst h
        exact ⟨rfl, by omega⟩
    | none =>
      simp only [hsu] at h
      injection h with h
      subst h
      refine ⟨rfl, ?_⟩
      show (st.fringe ++ [(dv + e.2, st.counter, e.1)]).length ≤ st.fringe.length + 1
      rw [List.length_append]
      rfl

theorem foldRelax_effects {v : α} {dv : ℤ} :
    ∀ {pending : List (α × ℤ)} {st st2 : DState α},
    foldRelax v dv st pending = .ok st2 →
    st2.dist = st.dist ∧ st2.fringe.length ≤ st.fringe.length + pending.length := by
  intro pending
  induction pending with
  | nil =>
    intro st st2 h
    unfold foldRelax at h
    injection h with h
    subst h
    exact ⟨rfl, by omega⟩
  | cons e rest ih =>
    intro st st2 h
    unfold foldRelax at h
    cases hr : relax v dv st e with
    | error err => rw [hr] at h; exact absurd h (by simp)
    | ok st3 =>
      rw [hr] at h
      obtain ⟨hd3, hf3⟩ := relax_effects hr
      obtain ⟨hd2, hf2⟩ := ih h
      refine ⟨hd2.trans hd3, ?_⟩
      simp only [List.length_cons]
      omega

theorem relax_error_shape {v : α} {dv : ℤ} {st : DState α} {e : α × ℤ}
    {err : SolveError} (h : relax v dv st e = .error err) :
    err = .contradictoryPaths := by
  unfold relax at h
  cases hdu : alookup e.1 st.dist with
  | some du =>
    simp only [hdu] at h
    by_cases hlt : dv + e.2 < du
    · rw [if_pos hlt] at h
      injection h with h
      exact h.symm
    · rw [if_neg hlt] at h
      exact absurd h (by simp)
  | none =>
    simp only [hdu] at h
    cases hsu : alookup e.1 st.seen with
    | some su =>
      simp only [hsu] at h
      by_cases hlt : dv + e.2 < su
      · rw [if_pos hlt] at h; exact absurd h (by simp)
      · rw [if_neg hlt] at h; exact absurd h (by simp)
    | none =>
      simp only [hsu] at h
      exact absurd h (by simp)

theorem foldRelax_error_shape {v : α} {dv : ℤ} :
    ∀ {pending : List (α × ℤ)} {st : DState α} {err : SolveError},
    foldRelax v dv st pending = .error err → err = .contradictoryPaths := by
  intro pending
  induction pending with
  | nil =>
    intro st err h
    unfold foldRelax at h
    exact absurd h (by simp)
  | cons e rest ih =>
    intro st err h
    unfold foldRelax at h
    cases hr : relax v dv st e with
    | error err2 =>
      rw [hr] at h
      injection h with h
      rw [← h]
      exact relax_error_shape hr
    | ok st3 =>
      rw [hr] at h
      exact ih h

theorem phi_fresh_bound {G : Graph α β} {st st2 : DState α} {x : ℤ × ℕ × α}
    {rest : List (ℤ × ℕ × α)} (hp : popMin st.fringe = some (x, rest))
    (hfresh : alookup x.2.2 st.dist = none)
    (hfold : foldRelax x.2.2 x.1
      { st with dist := st.dist ++ [(x.2.2, x.1)], fringe := rest }
      (G.adjOf x.2.2) = .ok st2) :
    phiMeasure G st2 + 1 ≤ phiMeasure G st := by
  have hlen : st.fringe.length = rest.length + 1 := by
    have := (popMin_perm hp).length_eq
    simp only [List.length_cons] at this
    exact this
  obtain ⟨hd2, hf2⟩ := foldRelax_effects hfold
  have hadw : adjWeight (st.dist ++ [(x.2.2, x.1)]) G.adj + (G.adjOf x.2.2).length ≤
      adjWeight st.dist G.adj := adjWeight_fresh hfresh G.adj
  unfold phiMeasure
  rw [hd2]
  show st2.fringe.length + adjWeight (st.dist ++ [(x.2.2, x.1)]) G.adj + 1 ≤
    st.fringe.length + adjWeight st.dist G.adj
  have hfl : st2.fringe.length ≤ rest.length + (G.adjOf x.2.2).length := hf2
  omega

theorem dloopF_no_fuel_error (G : Graph α β) :
    ∀ (n : ℕ) (st : DState α), phiMeasure G st ≤ n →
    dloopF G n st ≠ .error .outOfFuel := by
  intro n
  induction n with
  | zero =>
    intro st hphi
    have hfr : st.fringe = [] := by
      unfold phiMeasure at hphi
      have : st.fringe.length = 0 := by omega
      exact List.length_eq_zero.mp this
    rw [dloopF_zero, (popMin_none_iff st.fringe).mpr hfr]
    simp
  | succ n ih =>
    intro st hphi
    cases hp : popMin st.fringe with
    | none => simp [dloopF_succ, hp]
    | some pr =>
      obtain ⟨x, rest⟩ := pr
      have hlen : st.fringe.length = rest.length + 1 := by
        have := (popMin_perm hp).length_eq
        simp only [List.length_cons] at this
        exact this
      by_cases hd : (alookup x.2.2 st.dist).isSome
      · simp only [dloopF_succ, hp]
        rw [if_pos hd]
        refine ih _ ?_
        unfold phiMeasure
        unfold phiMeasure at hphi
        show rest.length + adjWeight st.dist G.adj ≤ n
        omega
      · simp only [dloopF_succ, hp]
        rw [if_neg hd]
        rw [Option.not_isSome_iff_eq_none] at hd
        cases hf : foldRelax x.2.2 x.1
            { st with dist := st.dist ++ [(x.2.2, x.1)], fringe := rest }
            (G.adjOf x.2.2) with
        | error err =>
          rw [foldRelax_error_shape hf]
          simp
        | ok st2 =>
          have hbound := phi_fresh_bound hp hd hf
          exact ih st2 (by omega)

theorem relax_ok_of_foldInvO {G : Graph α β} {s v : α} {dv : ℤ} {e : α × ℤ}
    {pending : List (α × ℤ)} {st : DState α} (hWF : NodupAdjKeys G)
    (hInv : FoldInvO G s v dv (e :: pending) st) (he : e ∈ G.adjOf v) :
    ∃ st2, relax v dv st e = .ok st2 := by
  cases hdu : alookup e.1 st.dist with
  | some du =>
    have hnlt : ¬dv + e.2 < du := by
      obtain ⟨pv, hpv⟩ := hInv.seen_paths v dv (hInv.dist_seen v dv hInv.v_dist)
      have hwv : WalkW G s v pv dv :=
        hInv.paths_weight v pv dv hpv (hInv.dist_seen v dv hInv.v_dist)
      have hew : G.edgeWeight v e.1 = some e.2 := edgeWeight_of_mem_adjOf_nodup hWF he
      have hle : du ≤ dv + e.2 :=
        hInv.dist_lb e.1 du hdu _ _ (hwv.append_edge hew)
      omega
    exact ⟨st, by simp [relax, hdu, hnlt]⟩
  | none =>
    cases hsu : alookup e.1 st.seen with
    | some su =>
      by_cases hlt : dv + e.2 < su
      · exact ⟨pushState v e.1 (dv + e.2) st, by simp [relax, hdu, hsu, hlt]⟩
      · exact ⟨st, by simp [relax, hdu, hsu, hlt]⟩
    | none =>
      exact ⟨pushState v e.1 (dv + e.2) st, by simp [relax, hdu, hsu]⟩

theorem foldRelax_ok_of_foldInvO {G : Graph α β} {s v : α} {dv : ℤ}
    (hWF : NodupAdjKeys G) :
    ∀ {pending : List (α × ℤ)} {st : DState α},
    FoldInvO G s v dv pending st → (∀ q ∈ pending, q ∈ G.adjOf v) →
    ∃ st2, foldRelax v dv st pending = .ok st2 := by
  intro pending
  induction pending with
  | nil =>
    intro st _ _
    exact ⟨st, rfl⟩
  | cons e rest ih =>
    intro st hInv hsub
    obtain ⟨st3, hst3⟩ := relax_ok_of_foldInvO hWF hInv (hsub e (List.mem_cons_self _ _))
    have h3 := relax_foldInvO hWF hInv (hsub e (List.mem_cons_self _ _)) hst3
    obtain ⟨st4, hst4⟩ := ih h3 (fun q hq => hsub q (List.mem_cons_of_mem _ hq))
    refine ⟨st4, ?_⟩
    unfold foldRelax
    rw [hst3]
    exact hst4

theorem dloopF_ok_of_invO {G : Graph α β} {s : α} (hWF : NodupAdjKeys G)
    (hNN : NonnegWeights G) :
    ∀ (n : ℕ) (st : DState α), phiMeasure G st ≤ n → InvO G s st →
    ∃ res, dloopF G n st = .ok res := by
  intro n
  induction n with
  | zero =>
    intro st hphi _
    have hfr : st.fringe = [] := by
      unfold phiMeasure at hphi
      have : st.fringe.length = 0 := by omega
      exact List.length_eq_zero.mp this
    refine ⟨(st.dist, st.paths), ?_⟩
    simp [dloopF_zero, (popMin_none_iff st.fringe).mpr hfr]
  | succ n ih =>
    intro st hphi hInv
    cases hp : popMin st.fringe with
    | none =>
      refine ⟨(st.dist, st.paths), ?_⟩
      simp [dloopF_succ, hp]
    | some pr =>
      obtain ⟨x, rest⟩ := pr
      have hlen : st.fringe.length = rest.length + 1 := by
        have := (popMin_perm hp).length_eq
        simp only [List.length_cons] at this
        exact this
      by_cases hd : (alookup x.2.2 st.dist).isSome
      · obtain ⟨res, hres⟩ := ih { st with fringe := rest }
          (by unfold phiMeasure at hphi ⊢; show rest.length + adjWeight st.dist G.adj ≤ n;
              omega)
          (stale_invO hInv hp hd)
        refine ⟨res, ?_⟩
        simp only [dloopF_succ, hp]
        rw [if_pos hd]
        exact hres
      · rw [Option.not_isSome_iff_eq_none] at hd
        have h1 := fresh_foldInvO hNN hInv hp hd
        obtain ⟨st2, hst2⟩ := foldRelax_ok_of_foldInvO hWF h1 (fun q hq => hq)
        have hbound := phi_fresh_bound hp hd hst2
        obtain ⟨res, hres⟩ := ih st2 (by omega)
          (foldInvO_to_invO (foldRelax_foldInvO hWF h1 (fun q hq => hq) hst2))
        refine ⟨res, ?_⟩
        simp only [dloopF_succ, hp]
        rw [if_neg (by rw [hd]; simp), hst2]
        exact hres

/-- On a well-formed graph with non-negative weights the single-source solve
always succeeds: the fuel bound 'dijkstraFuel' equals the initial loop
measure (which strictly decreases every iteration), and the
contradictory-paths branch is unreachable. -/
theorem single_source_dijkstra_total {G : Graph α β} (hWF : NodupAdjKeys G)
    (hNN : NonnegWeights G) (s : α) :
    ∃ res, single_source_dijkstra G s = .ok res := by
  apply dloopF_ok_of_invO hWF hNN (dijkstraFuel G) _ _ (invO_init G s)
  unfold phiMeasure dijkstraFuel
  rw [adjWeight_nil_dist]
  show 1 + (G.adj.map (fun p => p.2.length)).sum ≤
    1 + (G.adj.map (fun p => p.2.length)).sum
  exact le_refl _

/-- On a well-formed graph with non-negative weights the whole all-pairs
solve returns a routing table. -/
theorem compute_shortest_paths_total {G : Graph α β} (hWF : NodupAdjKeys G)
    (hNN : NonnegWeights G) :
    ∃ rt, compute_shortest_paths G = .ok rt := by
  show ∃ rt, cspAux G G.nodeKeys = .ok rt
  induction G.nodeKeys with
  | nil => exact ⟨[], rfl⟩
  | cons s rest ih =>
    obtain ⟨dp, hdp⟩ := single_source_dijkstra_total hWF hNN s
    obtain ⟨tbl, htbl⟩ := ih
    refine ⟨(s, innerTable dp.1 dp.2) :: tbl, ?_⟩
    show cspAux G (s :: rest) = _
    unfold cspAux
    rw [hdp, htbl]

end Totality

section BuildClaimHelpers

variable {α : Type} {β : Type} [DecidableEq α]

theorem lastWeight_isSome_of_mem {r : EdgeRow α} {es : List (EdgeRow α)} (h : r ∈ es) :
    (lastWeight r.source r.target es).isSome := by
  induction es with
  | nil => simp at h
  | cons q rest ih =>
    rw [lastWeight_cons]
    cases hlw : lastWeight r.source r.target rest with
    | some w => simp
    | none =>
      rcases List.mem_cons.mp h with rfl | hr
      · simp
      · rw [hlw] at ih
        simp at ih
        exact absurd (ih hr) (by simp)

theorem lastNodeAttr_eq_none_of_not_mem {v : α} {ns : List (NodeRow α β)}
    (h : v ∉ ns.map NodeRow.node_id) : lastNodeAttr v ns = none := by
  induction ns with
  | nil => rfl
  | cons r rest ih =>
    simp only [List.map_cons, List.mem_cons, not_or] at h
    unfold lastNodeAttr
    rw [ih h.2]
    simp only []
    rw [if_neg (fun he : r.node_id = v => h.1 he.symm)]

theorem touchedBy_of_mem {v : α} {r : EdgeRow α} {es : List (EdgeRow α)}
    (hr : r ∈ es) (hv : v = r.source ∨ v = r.target) : TouchedBy v es :=
  ⟨r, hr, by rcases hv with h | h
             · exact Or.inl h.symm
             · exact Or.inr h.symm⟩

end BuildClaimHelpers

section BuildClaims

instance {α β : Type} [DecidableEq α] (G : Graph α β) : Decidable (NodupAdjKeys G) := by
  unfold NodupAdjKeys; infer_instance

instance {α β : Type} [DecidableEq α] (G : Graph α β) : Decidable (NonnegWeights G) := by
  unfold NonnegWeights; infer_instance

/-- Claim C1: on a valid graph (duplicate-free adjacency dicts, an invariant
of every `build_graph` output — see `build_graph_nodupAdjKeys`) with
non-negative edge weights, the all-pairs solve returns a routing table, and
for every pair `(s, t)` with `t` reachable from `s` the table has an entry
whose recorded `distance_km` is the sum of the stored edge weights along its
recorded `path` (this is what `WalkW G s t path cost` says: `path` leads from
`s` to `t` along stored edges and its weights sum to `cost`), and no walk —
in particular no path — from `s` to `t` has a strictly smaller total
weight. -/
theorem c1_shortest_path_optimal {α β : Type} [DecidableEq α] (G : Graph α β)
    (hWF : NodupAdjKeys G) (hNN : NonnegWeights G) :
    ∃ rt, compute_shortest_paths G = .ok rt ∧
      ∀ s t, s ∈ G.nodeKeys → Reachable G s t →
        ∃ inner e, alookup s rt = some inner ∧ alookup t inner = some e ∧
          WalkW G s t e.path e.distance_km ∧
          ∀ p c, WalkW G s t p c → e.distance_km ≤ c := by
  obtain ⟨rt, hok⟩ := compute_shortest_paths_total hWF hNN
  refine ⟨rt, hok, fun s t hs hreach => ?_⟩
  have hkeys := cspAux_keys hok
  have hsome : (alookup s rt).isSome :=
    alookup_isSome_of_mem_keys (by rw [hkeys]; exact hs)
  obtain ⟨inner, hinner⟩ := Option.isSome_iff_exists.mp hsome
  obtain ⟨dp, hdp, hEq⟩ := cspAux_lookup hok hinner
  obtain ⟨D, P⟩ := dp
  subst hEq
  have hbase := single_source_dijkstra_base hdp
  have hopt := single_source_dijkstra_opt hWF hNN hdp
  obtain ⟨p0, c0, hw0⟩ := hreach
  have hDsome : (alookup t D).isSome := hbase.complete t p0 c0 hw0
  have hPsome : (alookup t P).isSome := (hbase.keys_iff t).mpr hDsome
  obtain ⟨d, hd⟩ := Option.isSome_iff_exists.mp hDsome
  obtain ⟨p, hp⟩ := Option.isSome_iff_exists.mp hPsome
  have hgetD : (alookup t D).getD 0 = d := by rw [hd]; rfl
  refine ⟨innerTable D P, ⟨p, (alookup t D).getD 0⟩, hinner, ?_, ?_, ?_⟩
  · rw [alookup_innerTable, hp]
    rfl
  · show WalkW G s t p ((alookup t D).getD 0)
    rw [hgetD]
    exact hopt.exact_weight t p d hp hd
  · intro q c hw
    show (alookup t D).getD 0 ≤ c
    rw [hgetD]
    exact hopt.minimal t d hd q c hw

/-- Node rows for the C1 witness scenario. -/
def c1nodes : List (NodeRow ℕ ℕ) := [⟨0, 0, 0⟩, ⟨1, 0, 0⟩]

/-- Edge rows for the C1 witness scenario: one edge `0 → 1` of weight 7. -/
def c1edges : List (EdgeRow ℕ) := [⟨0, 1, 7⟩]

/-- Witness for claim C1 at a concrete two-node graph. -/
theorem c1_witness :
    NodupAdjKeys (build_graph c1nodes c1edges) ∧
    NonnegWeights (build_graph c1nodes c1edges) ∧
    ∃ rt, compute_shortest_paths (build_graph c1nodes c1edges) = .ok rt ∧
      ∀ s t, s ∈ (build_graph c1nodes c1edges).nodeKeys →
        Reachable (build_graph c1nodes c1edges) s t →
        ∃ inner e, alookup s rt = some inner ∧ alookup t inner = some e ∧
          WalkW (build_graph c1nodes c1edges) s t e.path e.distance_km ∧
          ∀ p c, WalkW (build_graph c1nodes c1edges) s t p c → e.distance_km ≤ c :=
  ⟨by decide, by decide,
    c1_shortest_path_optimal (build_graph c1nodes c1edges) (by decide) (by decide)⟩

/-- Claim C2: whenever the all-pairs solve returns a routing table, every
entry's path starts at its source and ends at its target, and every node of
the graph has a self-entry with path `[s]` and cost `0`. -/
theorem c2_path_endpoints_and_self {α β : Type} [DecidableEq α] (G : Graph α β)
    (rt : List (α × List (α × RouteEntry α)))
    (hok : compute_shortest_paths G = .ok rt) :
    (∀ s inner t e, alookup s rt = some inner → alookup t inner = some e →
      e.path.head? = some s ∧ e.path.getLast? = some t) ∧
    (∀ s, s ∈ G.nodeKeys → ∃ inner, alookup s rt = some inner ∧
      alookup s inner = some ⟨[s], 0⟩) := by
  constructor
  · intro s inner t e hs ht
    obtain ⟨dp, hdp, hEq⟩ := cspAux_lookup hok hs
    obtain ⟨D, P⟩ := dp
    subst hEq
    rw [alookup_innerTable] at ht
    cases hP : alookup t P with
    | none => rw [hP] at ht; exact absurd ht (by simp)
    | some p =>
      rw [hP] at ht
      injection ht with ht
      have hbase := single_source_dijkstra_base hdp
      obtain ⟨c, hw⟩ := hbase.paths_walk t p hP
      have hhead : e.path.head? = some s := by rw [← ht]; exact hw.head_eq
      have hlast : e.path.getLast? = some t := by rw [← ht]; exact hw.last_eq
      exact ⟨hhead, hlast⟩
  · intro s hsk
    have hkeys := cspAux_keys hok
    have hsome : (alookup s rt).isSome :=
      alookup_isSome_of_mem_keys (by rw [hkeys]; exact hsk)
    obtain ⟨inner, hinner⟩ := Option.isSome_iff_exists.mp hsome
    obtain ⟨dp, hdp, hEq⟩ := cspAux_lookup hok hinner
    obtain ⟨D, P⟩ := dp
    subst hEq
    have hbase := single_source_dijkstra_base hdp
    refine ⟨_, hinner, ?_⟩
    rw [alookup_innerTable, hbase.self_path, hbase.self_dist]
    rfl

/-- Node rows for the C2 witness scenario. -/
def c2nodes : List (NodeRow ℕ ℕ) := [⟨0, 0, 0⟩, ⟨1, 0, 0⟩]

/-- Edge rows for the C2 witness scenario. -/
def c2edges : List (EdgeRow ℕ) := [⟨0, 1, 4⟩]

/-- Witness for claim C2 at a concrete two-node graph. -/
theorem c2_witness :
    compute_shortest_paths (build_graph c2nodes c2edges) =
      .ok [(0, [(0, ⟨[0], 0⟩), (1, ⟨[0, 1], 4⟩)]), (1, [(1, ⟨[1], 0⟩)])] ∧
    ((∀ s inner t e,
        alookup s [(0, [(0, (⟨[0], 0⟩ : RouteEntry ℕ)), (1, ⟨[0, 1], 4⟩)]),
          (1, [(1, ⟨[1], 0⟩)])] = some inner →
        alookup t inner = some e →
        e.path.head? = some s ∧ e.path.getLast? = some t) ∧
     (∀ s, s ∈ (build_graph c2nodes c2edges).nodeKeys →
        ∃ inner,
          alookup s [(0, [(0, (⟨[0], 0⟩ : RouteEntry ℕ)), (1, ⟨[0, 1], 4⟩)]),
            (1, [(1, ⟨[1], 0⟩)])] = some inner ∧
          alookup s inner = some ⟨[s], 0⟩)) :=
  ⟨rfl, c2_path_endpoints_and_self (build_graph c2nodes c2edges)
    [(0, [(0, ⟨[0], 0⟩), (1, ⟨[0, 1], 4⟩)]), (1, [(1, ⟨[1], 0⟩)])] (by decide)⟩

/-- Claim C3: whenever the all-pairs solve returns a routing table, the inner
mapping of each source `s` has an entry exactly for the nodes reachable from
`s`: membership of a target is equivalent to reachability, so unreachable
targets are absent (nothing is inserted with an infinite placeholder cost —
the embedding's entries carry plain integers, and absence is the only way a
target can be unreachable). -/
theorem c3_entries_exactly_reachable {α β : Type} [DecidableEq α] (G : Graph α β)
    (rt : List (α × List (α × RouteEntry α)))
    (hok : compute_shortest_paths G = .ok rt) (s : α) (hs : s ∈ G.nodeKeys) :
    ∃ inner, alookup s rt = some inner ∧
      ∀ t, (alookup t inner).isSome ↔ Reachable G s t := by
  have hkeys := cspAux_keys hok
  have hsome : (alookup s rt).isSome :=
    alookup_isSome_of_mem_keys (by rw [hkeys]; exact hs)
  obtain ⟨inner, hinner⟩ := Option.isSome_iff_exists.mp hsome
  obtain ⟨dp, hdp, hEq⟩ := cspAux_lookup hok hinner
  obtain ⟨D, P⟩ := dp
  subst hEq
  have hbase := single_source_dijkstra_base hdp
  refine ⟨_, hinner, fun t => ?_⟩
  rw [alookup_innerTable]
  constructor
  · intro hsomeE
    have hPsome : (alookup t P).isSome := by
      cases hP : alookup t P with
      | none => rw [hP] at hsomeE; exact absurd hsomeE (by simp)
      | some p => rfl
    obtain ⟨p, hp⟩ := Option.isSome_iff_exists.mp hPsome
    obtain ⟨c, hw⟩ := hbase.paths_walk t p hp
    exact ⟨p, c, hw⟩
  · rintro ⟨p, c, hw⟩
    have hD := hbase.complete t p c hw
    have hP := (hbase.keys_iff t).mpr hD
    obtain ⟨p', hp'⟩ := Option.isSome_iff_exists.mp hP
    rw [hp']
    rfl

/-- Node rows for the C3 witness scenario (the §8 directed `A → B` case). -/
def c3nodes : List (NodeRow ℕ ℕ) := [⟨0, 0, 0⟩, ⟨1, 0, 0⟩]

/-- Edge rows for the C3 witness scenario: only `A → B`, no reverse edge. -/
def c3edges : List (EdgeRow ℕ) := [⟨0, 1, 7⟩]

/-- Witness for claim C3 at the concrete directed `A → B` graph, solved from
`B`: the inner mapping's membership is equivalent to reachability from `B`
(in particular `A`, unreachable from `B`, has no entry — the concrete inner
mapping for source `1` is `[(1, ⟨[1], 0⟩)]`, which contains no key `0`). -/
theorem c3_witness :
    compute_shortest_paths (build_graph c3nodes c3edges) =
      .ok [(0, [(0, ⟨[0], 0⟩), (1, ⟨[0, 1], 7⟩)]), (1, [(1, ⟨[1], 0⟩)])] ∧
    (1 : ℕ) ∈ (build_graph c3nodes c3edges).nodeKeys ∧
    ∃ inner,
      alookup 1 [(0, [(0, (⟨[0], 0⟩ : RouteEntry ℕ)), (1, ⟨[0, 1], 7⟩)]),
        (1, [(1, ⟨[1], 0⟩)])] = some inner ∧
      ∀ t, (alookup t inner).isSome ↔ Reachable (build_graph c3nodes c3edges) 1 t :=
  ⟨rfl, by decide,
    c3_entries_exactly_reachable (build_graph c3nodes c3edges)
      [(0, [(0, ⟨[0], 0⟩), (1, ⟨[0, 1], 7⟩)]), (1, [(1, ⟨[1], 0⟩)])] (by decide) 1
      (by decide)⟩

/-- Node rows for the negative-weight scenario: two nodes `0` and `1`. -/
def c4nodes : List (NodeRow ℕ ℕ) := [⟨0, 0, 0⟩, ⟨1, 0, 0⟩]

/-- Edge rows for the negative-weight scenario: one edge `0 → 1` of weight
`-5`. -/
def c4edges : List (EdgeRow ℕ) := [⟨0, 1, -5⟩]

/-- Claim C4 is false on the code: `build_graph` performs no validation at
all, so an input containing an edge of weight `-5` does not fail with any
error — `build_graph` is a total function that stores the negative weight,
and the whole pipeline then happily computes a routing table whose `0 → 1`
entry has cost `-5`.  There is no `NegativeWeightError` anywhere in the
program. -/
theorem c4_counterexample :
    (build_graph c4nodes c4edges).edgeWeight 0 1 = some (-5) ∧
    compute_shortest_paths (build_graph c4nodes c4edges) =
      .ok [(0, [(0, ⟨[0], 0⟩), (1, ⟨[0, 1], -5⟩)]), (1, [(1, ⟨[1], 0⟩)])] := by
  exact ⟨rfl, rfl⟩

/-- Amended claim C4: graph construction never rejects an edge on account of
its weight; every edge row, including one with a strictly negative
`distance_km`, ends up stored in the built graph (so any failure can only
surface later, during solving, not at build time). -/
theorem c4_amended_negative_weight_accepted {α β : Type} [DecidableEq α]
    (ns : List (NodeRow α β)) (es : List (EdgeRow α)) (r : EdgeRow α)
    (hr : r ∈ es) (hneg : r.distance_km < 0) :
    ((build_graph ns es).edgeWeight r.source r.target).isSome := by
  rw [build_graph_edgeWeight]
  exact lastWeight_isSome_of_mem hr

/-- Witness for the amended claim C4 at the concrete negative-weight input. -/
theorem c4_amended_witness :
    (⟨0, 1, -5⟩ : EdgeRow ℕ) ∈ c4edges ∧ (-5 : ℤ) < 0 ∧
    ((build_graph c4nodes c4edges).edgeWeight 0 1).isSome :=
  ⟨by decide, by decide,
    c4_amended_negative_weight_accepted c4nodes c4edges ⟨0, 1, -5⟩ (by decide) (by decide)⟩

/-- Node rows for the dangling-edge scenario: only node `0` is declared. -/
def c5nodes : List (NodeRow ℕ ℕ) := [⟨0, 0, 0⟩]

/-- Edge rows for the dangling-edge scenario: edge `0 → 1` whose target `1`
is absent from the node rows. -/
def c5edges : List (EdgeRow ℕ) := [⟨0, 1, 3⟩]

/-- Claim C5 is false on the code: an edge referencing an identifier absent
from the node set does not fail with `DanglingEdgeError` — `build_graph` is
total, `nx.DiGraph.add_edge` silently creates the missing endpoint, and a
graph containing both endpoints is returned and solved. -/
theorem c5_counterexample :
    (build_graph c5nodes c5edges).hasNode 1 = true ∧
    compute_shortest_paths (build_graph c5nodes c5edges) =
      .ok [(0, [(0, ⟨[0], 0⟩), (1, ⟨[0, 1], 3⟩)]), (1, [(1, ⟨[1], 0⟩)])] := by
  exact ⟨rfl, rfl⟩

/-- Amended claim C5: a dangling edge is never rejected; after `build_graph`
both endpoints of every edge row are nodes of the returned graph. -/
theorem c5_amended_dangling_edge_creates_nodes {α β : Type} [DecidableEq α]
    (ns : List (NodeRow α β)) (es : List (EdgeRow α)) (r : EdgeRow α) (hr : r ∈ es) :
    (build_graph ns es).hasNode r.source = true ∧
    (build_graph ns es).hasNode r.target = true := by
  constructor <;>
  · unfold Graph.hasNode
    rw [build_graph_nodeAttrs]
    cases h : lastNodeAttr _ ns with
    | some a => simp
    | none =>
      rw [if_pos (touchedBy_of_mem hr (by simp))]
      simp

/-- Witness for the amended claim C5 at the concrete dangling-edge input. -/
theorem c5_amended_witness :
    (⟨0, 1, 3⟩ : EdgeRow ℕ) ∈ c5edges ∧
    ((build_graph c5nodes c5edges).hasNode 0 = true ∧
     (build_graph c5nodes c5edges).hasNode 1 = true) :=
  ⟨by decide, c5_amended_dangling_edge_creates_nodes c5nodes c5edges ⟨0, 1, 3⟩ (by decide)⟩

/-- Node rows for the duplicate-identifier scenario: identifier `0` appears
twice with conflicting attributes. -/
def c6nodes : List (NodeRow ℕ ℕ) := [⟨0, 1, 10⟩, ⟨0, 2, 20⟩]

/-- Claim C6 is false on the code: two node rows sharing an identifier with
conflicting attributes do not fail with `DuplicateNodeError` — `build_graph`
is total, `nx.DiGraph.add_node` overwrites the stored attributes, and the
surviving attributes are exactly those of the last row (last-write-wins,
which the claim explicitly denies). -/
theorem c6_counterexample :
    alookup 0 (build_graph c6nodes ([] : List (EdgeRow ℕ))).nodeAttrs =
      some (some (2, 20)) ∧
    compute_shortest_paths (build_graph c6nodes ([] : List (EdgeRow ℕ))) =
      .ok [(0, [(0, ⟨[0], 0⟩)])] := by
  exact ⟨rfl, rfl⟩

/-- Amended claim C6: duplicate node rows are never rejected, conflicting or
not; whenever node rows with a given identifier exist, the built graph stores
the attributes of the last such row. -/
theorem c6_amended_last_node_wins {α β : Type} [DecidableEq α]
    (ns : List (NodeRow α β)) (es : List (EdgeRow α)) (v : α) (a : β × β)
    (h : lastNodeAttr v ns = some a) :
    alookup v (build_graph ns es).nodeAttrs = some (some a) := by
  rw [build_graph_nodeAttrs, h]

/-- Witness for the amended claim C6 at the concrete conflicting input. -/
theorem c6_amended_witness :
    lastNodeAttr 0 c6nodes = some (2, 20) ∧
    alookup 0 (build_graph c6nodes ([] : List (EdgeRow ℕ))).nodeAttrs =
      some (some (2, 20)) :=
  ⟨by decide, c6_amended_last_node_wins c6nodes [] 0 (2, 20) (by decide)⟩

/-- Node rows for the parallel-edge scenario. -/
def c7nodes : List (NodeRow ℕ ℕ) := [⟨0, 0, 0⟩, ⟨1, 0, 0⟩]

/-- Edge rows for the parallel-edge scenario: two parallel edges `0 → 1`
with weights `2` and then `5`; their minimum is `2`. -/
def c7edges : List (EdgeRow ℕ) := [⟨0, 1, 2⟩, ⟨0, 1, 5⟩]

/-- Claim C7 is false on the code: for parallel edges the built graph does
not record the minimum weight — `nx.DiGraph.add_edge` overwrites the edge
data, so the last weight in input order wins.  With weights `2` then `5` the
stored effective weight is `5`, not the minimum `2`, and the solver
accordingly reports cost `5`. -/
theorem c7_counterexample :
    (build_graph c7nodes c7edges).edgeWeight 0 1 = some 5 ∧
    (build_graph c7nodes c7edges).edgeWeight 0 1 ≠ some 2 ∧
    compute_shortest_paths (build_graph c7nodes c7edges) =
      .ok [(0, [(0, ⟨[0], 0⟩), (1, ⟨[0, 1], 5⟩)]), (1, [(1, ⟨[1], 0⟩)])] := by
  refine ⟨rfl, ?_, rfl⟩
  decide

/-- Amended claim C7: the built graph keeps a single effective weight per
ordered pair, namely the weight of the LAST edge row with that ordered pair
(last-write-wins), and it is this weight that shortest-path computation
sees. -/
theorem c7_amended_last_edge_wins {α β : Type} [DecidableEq α]
    (ns : List (NodeRow α β)) (es : List (EdgeRow α)) (u v : α) :
    (build_graph ns es).edgeWeight u v = lastWeight u v es :=
  build_graph_edgeWeight ns es u v

/-- Witness for the amended claim C7 at the concrete parallel-edge input. -/
theorem c7_amended_witness :
    (build_graph c7nodes c7edges).edgeWeight 0 1 = lastWeight 0 1 c7edges ∧
    lastWeight 0 1 c7edges = some 5 :=
  ⟨c7_amended_last_edge_wins c7nodes c7edges 0 1, by decide⟩

/-- Claim C10 (implicit behaviour, confirmed): an edge row whose endpoint
identifier appears in no node row silently creates that identifier as a node
with an empty attribute dict — no error — and every all-pairs solve that
returns a table lists that identifier among the routing-table source keys. -/
theorem c10_implicit_node_creation {α β : Type} [DecidableEq α]
    (ns : List (NodeRow α β)) (es : List (EdgeRow α)) (r : EdgeRow α) (v : α)
    (hr : r ∈ es) (hv : v = r.source ∨ v = r.target)
    (habsent : v ∉ ns.map NodeRow.node_id) :
    alookup v (build_graph ns es).nodeAttrs = some none ∧
    ∀ rt, compute_shortest_paths (build_graph ns es) = .ok rt →
      (alookup v rt).isSome := by
  have hattr : alookup v (build_graph ns es).nodeAttrs = some none := by
    rw [build_graph_nodeAttrs, lastNodeAttr_eq_none_of_not_mem habsent]
    rw [if_pos (touchedBy_of_mem hr hv)]
  refine ⟨hattr, fun rt hrt => ?_⟩
  have hkeys : rt.map Prod.fst = (build_graph ns es).nodeKeys := cspAux_keys hrt
  apply alookup_isSome_of_mem_keys
  rw [hkeys]
  unfold Graph.nodeKeys
  rw [← alookup_isSome_iff_mem, hattr]
  rfl

/-- Witness for claim C10 at the concrete dangling-edge input. -/
theorem c10_witness :
    ((⟨0, 1, 3⟩ : EdgeRow ℕ) ∈ c5edges ∧ ((1 : ℕ) = (⟨0, 1, 3⟩ : EdgeRow ℕ).source ∨
      (1 : ℕ) = (⟨0, 1, 3⟩ : EdgeRow ℕ).target) ∧ (1 : ℕ) ∉ c5nodes.map NodeRow.node_id) ∧
    (alookup 1 (build_graph c5nodes c5edges).nodeAttrs = some none ∧
     ∀ rt, compute_shortest_paths (build_graph c5nodes c5edges) = .ok rt →
       (alookup 1 rt).isSome) :=
  ⟨⟨by decide, by decide, by decide⟩,
    c10_implicit_node_creation c5nodes c5edges ⟨0, 1, 3⟩ 1 (by decide) (by decide) (by decide)⟩

/-- Node rows for the five-node scenario of §8 of the spec
(`A,B,C,D,E` encoded as `0,1,2,3,4`). -/
def c8nodes : List (NodeRow ℕ ℕ) := [⟨0, 0, 0⟩, ⟨1, 0, 0⟩, ⟨2, 0, 0⟩, ⟨3, 0, 0⟩, ⟨4, 0, 0⟩]

/-- Edge rows `(A,B,5),(B,C,3),(C,D,4),(D,E,2),(A,E,8),(B,E,6)` of the §8
scenario, in input order. -/
def c8edges : List (EdgeRow ℕ) :=
  [⟨0, 1, 5⟩, ⟨1, 2, 3⟩, ⟨2, 3, 4⟩, ⟨3, 4, 2⟩, ⟨0, 4, 8⟩, ⟨1, 4, 6⟩]

/-- The routing table the code actually computes on the §8 scenario. -/
def c8table : List (ℕ × List (ℕ × RouteEntry ℕ)) :=
  [(0, [(0, ⟨[0], 0⟩), (1, ⟨[0, 1], 5⟩), (4, ⟨[0, 4], 8⟩), (2, ⟨[0, 1, 2], 8⟩),
        (3, ⟨[0, 1, 2, 3], 12⟩)]),
   (1, [(1, ⟨[1], 0⟩), (2, ⟨[1, 2], 3⟩), (4, ⟨[1, 4], 6⟩), (3, ⟨[1, 2, 3], 7⟩)]),
   (2, [(2, ⟨[2], 0⟩), (3, ⟨[2, 3], 4⟩), (4, ⟨[2, 3, 4], 6⟩)]),
   (3, [(3, ⟨[3], 0⟩), (4, ⟨[3, 4], 2⟩)]),
   (4, [(4, ⟨[4], 0⟩)])]

/-- Claim C8 is false on the code: `build_graph` takes no `directed`
configuration flag (its only inputs are the node and edge rows) and always
builds a `DiGraph`, inserting each edge in its given direction only.  On the
§8 scenario the edge `(D,E,2)` therefore provides no `E → D` traversal, and
the computed path from `A` to `D` is `[A,B,C,D]` at cost `12` — not the
claimed `[A,E,D]` at cost `10`. -/
theorem c8_counterexample :
    compute_shortest_paths (build_graph c8nodes c8edges) = .ok c8table ∧
    alookup 3 ((alookup 0 c8table).getD []) = some ⟨[0, 1, 2, 3], 12⟩ ∧
    (⟨[0, 1, 2, 3], 12⟩ : RouteEntry ℕ) ≠ ⟨[0, 4, 3], 10⟩ := by
  refine ⟨rfl, rfl, ?_⟩
  decide

/-- Amended claim C8: there is no `directed` flag and edges are inserted only
in their given direction, so on the §8 scenario the computed route from `A`
to `D` is `[A,B,C,D]` with cost `12` (the undirected route `[A,E,D]` of cost
`10` is not available to the directed solver). -/
theorem c8_amended_directed_route :
    compute_shortest_paths (build_graph c8nodes c8edges) = .ok c8table ∧
    alookup 3 ((alookup 0 c8table).getD []) = some ⟨[0, 1, 2, 3], 12⟩ := by
  exact ⟨rfl, rfl⟩

/-- Node rows of the tie-breaking scenario (`A,B,C,D` as `0,1,2,3`). -/
def c9nodes : List (NodeRow ℕ ℕ) := [⟨0, 0, 0⟩, ⟨1, 0, 0⟩, ⟨2, 0, 0⟩, ⟨3, 0, 0⟩]

/-- Edge rows of the tie-breaking scenario: `A → C` and `A → B` both of
weight `1` (in that input order), then `C → D` and `B → D` of weight `1`.
From `A`, nodes `B` and `C` are reached at the same tentative cost `1`, so
which of the two equal-cost routes to `D` is reported depends purely on the
extraction tie-break. -/
def c9edges : List (EdgeRow ℕ) := [⟨0, 2, 1⟩, ⟨0, 1, 1⟩, ⟨2, 3, 1⟩, ⟨1, 3, 1⟩]

/-- The table the code computes: the heap breaks the tie by insertion
counter, so `C` (pushed first) is settled first and the reported route to `D`
is `[A,C,D]`. -/
def c9tableHeap : List (ℕ × List (ℕ × RouteEntry ℕ)) :=
  [(0, [(0, ⟨[0], 0⟩), (2, ⟨[0, 2], 1⟩), (1, ⟨[0, 1], 1⟩), (3, ⟨[0, 2, 3], 2⟩)]),
   (1, [(1, ⟨[1], 0⟩), (3, ⟨[1, 3], 1⟩)]),
   (2, [(2, ⟨[2], 0⟩), (3, ⟨[2, 3], 1⟩)]),
   (3, [(3, ⟨[3], 0⟩)])]

/-- The table the spec's node-identifier tie-break would compute: `B` (lower
identifier) is settled before `C`, so the reported route to `D` is
`[A,B,D]`. -/
def c9tableNodeTie : List (ℕ × List (ℕ × RouteEntry ℕ)) :=
  [(0, [(0, ⟨[0], 0⟩), (2, ⟨[0, 2], 1⟩), (1, ⟨[0, 1], 1⟩), (3, ⟨[0, 1, 3], 2⟩)]),
   (1, [(1, ⟨[1], 0⟩), (3, ⟨[1, 3], 1⟩)]),
   (2, [(2, ⟨[2], 0⟩), (3, ⟨[2, 3], 1⟩)]),
   (3, [(3, ⟨[3], 0⟩)])]

/-- Claim C9 is false on the code as regards the tie-breaking rule: the
solver pops fringe entries in `(distance, counter)` order, so ties in
priority extraction are broken by heap insertion order, not by lower node
identifier.  On the tie scenario the code reports `[A,C,D]` while the spec's
node-identifier tie-break (`solveAllByNode`, modelled from the spec's words)
reports `[A,B,D]`, and the two routing tables differ. -/
theorem c9_counterexample :
    compute_shortest_paths (build_graph c9nodes c9edges) = .ok c9tableHeap ∧
    solveAllByNode (build_graph c9nodes c9edges) = .ok c9tableNodeTie ∧
    c9tableHeap ≠ c9tableNodeTie := by
  refine ⟨rfl, rfl, ?_⟩
  decide

/-- Amended claim C9: running the all-pairs solve twice on the same graph
does yield identical routing tables — the solver is a deterministic (pure)
function of the graph — but ties in priority extraction are broken by heap
insertion order (the `itertools.count()` counter), not by node identifier:
on the tie scenario the reported route from `A` to `D` is the
first-inserted `[A,C,D]`. -/
theorem c9_amended_deterministic :
    (∀ (G : Graph ℕ ℕ), compute_shortest_paths G = compute_shortest_paths G) ∧
    alookup 3 ((alookup 0 c9tableHeap).getD []) = some ⟨[0, 2, 3], 2⟩ := by
  exact ⟨fun _ => rfl, rfl⟩

/-- Witness for the amended claim C9: the idempotence component applied at
the concrete tie-scenario graph. -/
theorem c9_amended_witness :
    compute_shortest_paths (build_graph c9nodes c9edges) =
      compute_shortest_paths (build_graph c9nodes c9edges) :=
  c9_amended_deterministic.1 (build_graph c9nodes c9edges)

end BuildClaims
